import Mathlib

/-!
Verification development for the chess-translator repository.

Python strings are modelled as `List Char`; Python floats as `ℚ`.
Each definition embeds the source function it is named after (names are
transliterated to Lean-friendly identifiers where needed; the doc comment
of each definition names the Python source function).
-/

set_option autoImplicit false
set_option maxHeartbeats 1000000
set_option maxRecDepth 100000
set_option linter.unreachableTactic false
set_option linter.unusedTactic false
set_option linter.unusedVariables false
set_option linter.unnecessarySeqFocus false

namespace ChessPdf

/-- Strings are lists of characters. -/
abbrev Str := List Char

/-- Python `str.startswith(pat)` (at position 0). -/
def startsW : Str → Str → Bool
  | [], _ => true
  | _ :: _, [] => false
  | p :: ps, c :: cs => p == c && startsW ps cs

/-- Python `str.find(pat, i)` relative to position `i`: index of the first
occurrence of `pat` in `s`, `none` when absent (Python returns `-1`). -/
def firstOccur (pat : Str) (s : Str) : Option Nat :=
  if startsW pat s then some 0
  else
    match s with
    | [] => none
    | _ :: t => (firstOccur pat t).map (· + 1)

/-- Scanner for Python `str.count(pat)`; the fuel argument only forces
structural termination and is always passed at least the string length. -/
def countOccurGo (pat : Str) : Nat → Str → Nat
  | _, [] => if pat.isEmpty then 1 else 0
  | 0, _ => 0
  | fuel + 1, c :: t =>
    if pat.isEmpty then 1 + countOccurGo pat fuel t
    else if startsW pat (c :: t) then
      1 + countOccurGo pat fuel ((c :: t).drop pat.length)
    else countOccurGo pat fuel t

/-- Python `str.count(pat)`: number of non-overlapping occurrences. -/
def countOccur (pat s : Str) : Nat := countOccurGo pat s.length s

/-- Scanner for Python `str.replace`; fuel as in `countOccurGo`. -/
def replaceAllGo (pat rep : Str) : Nat → Str → Str
  | _, [] => []
  | 0, s => s
  | fuel + 1, c :: t =>
    if pat.isEmpty then c :: t
    else if startsW pat (c :: t) then
      rep ++ replaceAllGo pat rep fuel ((c :: t).drop pat.length)
    else c :: replaceAllGo pat rep fuel t

/-- Python `str.replace(pat, rep)`: replace all non-overlapping occurrences,
scanning left to right (no-op for the empty pattern, which the sources
never pass). -/
def replaceAll (pat rep s : Str) : Str := replaceAllGo pat rep s.length s

/-- Python `str.isspace()` on a single character (the whitespace characters
relevant to this code base). -/
def pyIsSpace (c : Char) : Bool :=
  c == ' ' || c == '\t' || c == '\n' || c == '\r' ||
  c == Char.ofNat 11 || c == Char.ofNat 12 || c == Char.ofNat 160

/-- Python `str.lstrip()` (whitespace). -/
def lstripWs (s : Str) : Str := s.dropWhile pyIsSpace

/-- Python `str.rstrip()` (whitespace). -/
def rstripWs (s : Str) : Str := (s.reverse.dropWhile pyIsSpace).reverse

/-- Python `str.strip()` (whitespace). -/
def stripWs (s : Str) : Str := rstripWs (lstripWs s)

theorem dropWhile_len_le {α : Type} (p : α → Bool) (l : List α) :
    (l.dropWhile p).length ≤ l.length := by
  induction l with
  | nil => simp
  | cons c t ih => simp only [List.dropWhile]; split <;> simp <;> omega

/-- Scanner for Python `str.split()`; fuel as in `countOccurGo`. -/
def splitWsGo : Nat → Str → List Str
  | _, [] => []
  | 0, _ => []
  | fuel + 1, c :: t =>
    if pyIsSpace c then splitWsGo fuel t
    else
      ((c :: t).takeWhile (fun a => !pyIsSpace a)) ::
        splitWsGo fuel (t.dropWhile (fun a => !pyIsSpace a))

/-- Python `str.split()` with no argument: split on whitespace runs,
dropping empty pieces. -/
def splitWs (s : Str) : List Str := splitWsGo s.length s

/-- Python `str.split(sep)` for a single separator character. -/
def splitOnChar (sep : Char) : Str → List Str
  | [] => [[]]
  | c :: t =>
    if c == sep then [] :: splitOnChar sep t
    else
      match splitOnChar sep t with
      | [] => [[c]]
      | w :: ws => (c :: w) :: ws

/-- Python slice `s[a:b]` for `0 ≤ a ≤ b` (clamped like Python). -/
def sliceStr (s : Str) (a b : Nat) : Str := (s.drop a).take (b - a)

/-- A text run or decoded segment: Python dict `{"text": ..., "bold": ...}`. -/
structure Run where
  text : Str
  bold : Bool
deriving DecidableEq, Repr

/-- The `B_START` marker `[[B]]` from `chess_pdf/config.py`. -/
def bS : Str := ['[', '[', 'B', ']', ']']

/-- The `B_END` marker `[[/B]]` from `chess_pdf/config.py`. -/
def bE : Str := ['[', '[', '/', 'B', ']', ']']

/-- The scanning loop of `parse_marked_segments` (`chess_pdf/rendering.py`):
bold text between `[[B]]` and the next `[[/B]]` (to end of string when the
end marker is missing), non-bold text up to the next `[[B]]`. -/
def parseScan : Str → List Run
  | [] => []
  | c :: t =>
    if startsW bS (c :: t) then
      match firstOccur bE ((c :: t).drop bS.length) with
      | none => [⟨(c :: t).drop bS.length, true⟩]
      | some j =>
        ⟨((c :: t).drop bS.length).take j, true⟩ ::
          parseScan (((c :: t).drop bS.length).drop (j + bE.length))
    else
      match firstOccur bS t with
      | none => [⟨c :: t, false⟩]
      | some j => ⟨(c :: t).take (j + 1), false⟩ :: parseScan (t.drop j)
termination_by s => s.length
decreasing_by
  · simp [bS, bE, List.length_drop]; omega
  · simp [List.length_drop]; omega

/-- The merge pass of `parse_marked_segments`: drop empty segments and merge
adjacent segments with the same bold flag. -/
def mergeSegs : List Run → List Run
  | [] => []
  | s :: rest =>
    if s.text.isEmpty then mergeSegs rest
    else
      match mergeSegs rest with
      | [] => [s]
      | t :: ts =>
        if t.bold == s.bold then ⟨s.text ++ t.text, s.bold⟩ :: ts
        else s :: t :: ts

/-- `parse_marked_segments` (`chess_pdf/rendering.py`). -/
def parse_marked_segments (marked : Str) : List Run :=
  mergeSegs (parseScan marked)

/-- `_runs_to_marked_text` (`chess_pdf/translation_core.py`): wrap each bold
run in the marker pair, concatenate in order. -/
def runsToMarkedText (runs : List Run) : Str :=
  (runs.map (fun r => if r.bold then bS ++ r.text ++ bE else r.text)).flatten

/-! Lemmas about `startsW` and `firstOccur`, used to settle the
marker-codec claims. -/

theorem startsW_append_self (p s : Str) : startsW p (p ++ s) = true := by
  induction p with
  | nil => simp [startsW]
  | cons c t ih => simp [startsW, ih]

theorem startsW_iff_take (p s : Str) :
    startsW p s = true ↔ s.take p.length = p := by
  induction p generalizing s with
  | nil => simp [startsW]
  | cons c t ih =>
    cases s with
    | nil => simp [startsW]
    | cons d u =>
      simp only [startsW, Bool.and_eq_true, beq_iff_eq, List.length_cons,
        List.take_succ_cons, List.cons.injEq]
      rw [ih]
      constructor
      · rintro ⟨h1, h2⟩; exact ⟨h1.symm, h2⟩
      · rintro ⟨h1, h2⟩; exact ⟨h1.symm, h2⟩

theorem firstOccur_of_startsW {p s : Str} (h : startsW p s = true) :
    firstOccur p s = some 0 := by
  cases s <;> simp [firstOccur, h]

theorem firstOccur_none_cons {p : Str} {c : Char} {t : Str}
    (h : firstOccur p (c :: t) = none) :
    startsW p (c :: t) = false ∧ firstOccur p t = none := by
  by_cases hs : startsW p (c :: t) = true
  · rw [firstOccur_of_startsW hs] at h; cases h
  · refine ⟨by simpa using hs, ?_⟩
    rw [firstOccur] at h
    simp only [hs] at h
    simp at h
    cases hfo : firstOccur p t with
    | none => rfl
    | some j => rw [hfo] at h; simp at h

/-- No proper suffix of `pat` starting inside `pat` matches a prefix of
`pat`: rules out matches straddling a boundary where `pat` was inserted. -/
def noStraddle (pat : Str) : Prop :=
  ∀ m, m < pat.length → 0 < m → pat.drop m ≠ pat.take (pat.length - m)

theorem noStraddle_bS : noStraddle bS := by unfold noStraddle bS; decide

theorem noStraddle_bE : noStraddle bE := by unfold noStraddle bE; decide

theorem not_startsW_boundary {pat a : Str} (r : Str)
    (ha : firstOccur pat a = none) (hne : pat ≠ []) (hns : noStraddle pat)
    (hlen : 0 < a.length) :
    startsW pat (a ++ pat ++ r) = false := by
  by_contra hcon
  have hst : startsW pat (a ++ pat ++ r) = true := by
    cases hx : startsW pat (a ++ pat ++ r)
    · exact absurd hx hcon
    · rfl
  rw [startsW_iff_take] at hst
  by_cases hle : pat.length ≤ a.length
  · -- the whole occurrence lies inside `a`, contradicting `ha`
    have htake : (a ++ (pat ++ r)).take pat.length = a.take pat.length := by
      rw [List.take_append_eq_append_take]
      have : pat.length - a.length = 0 := Nat.sub_eq_zero_of_le hle
      simp [this]
    rw [List.append_assoc] at hst
    rw [htake] at hst
    have hsw : startsW pat a = true := by
      rw [startsW_iff_take]; exact hst
    rw [firstOccur_of_startsW hsw] at ha; cases ha
  · -- the occurrence straddles the boundary, contradicting `noStraddle`
    push_neg at hle
    rw [List.append_assoc, List.take_append_eq_append_take] at hst
    have hta : a.take pat.length = a := List.take_of_length_le (Nat.le_of_lt hle)
    rw [hta] at hst
    have htpr : (pat ++ r).take (pat.length - a.length) = pat.take (pat.length - a.length) := by
      rw [List.take_append_eq_append_take]
      have : pat.length - a.length - pat.length = 0 := by omega
      simp [this]
    rw [htpr] at hst
    -- `pat = a ++ pat.take (pat.length - a.length)`, so `pat.drop a.length`
    -- equals a prefix of `pat`, which `noStraddle` forbids
    have hdrop : pat.drop a.length = pat.take (pat.length - a.length) := by
      conv_lhs => rw [← hst]
      rw [List.drop_append_eq_append_drop]
      simp
    exact hns a.length hle hlen hdrop

theorem firstOccur_boundary {pat t : Str} (r : Str)
    (ht : firstOccur pat t = none) (hne : pat ≠ []) (hns : noStraddle pat) :
    firstOccur pat (t ++ pat ++ r) = some t.length := by
  induction t with
  | nil =>
    simp only [List.nil_append]
    rw [firstOccur_of_startsW (startsW_append_self pat r)]
    rfl
  | cons c u ih =>
    obtain ⟨hsw, htail⟩ := firstOccur_none_cons ht
    have hnsw : startsW pat ((c :: u) ++ pat ++ r) = false :=
      not_startsW_boundary r ht hne hns (by simp)
    have : (c :: u) ++ pat ++ r = c :: (u ++ pat ++ r) := by simp
    rw [this] at hnsw ⊢
    rw [firstOccur]
    simp only [hnsw, Bool.false_eq_true, if_false]
    rw [ih htail]
    simp

theorem parseScan_boldStep (t r : Str) (hfree : firstOccur bE t = none) :
    parseScan (bS ++ t ++ bE ++ r) = ⟨t, true⟩ :: parseScan r := by
  have hocc : firstOccur bE (t ++ (bE ++ r)) = some t.length := by
    have := firstOccur_boundary r hfree (by simp [bE]) noStraddle_bE
    simpa [List.append_assoc] using this
  have harg : bS ++ t ++ bE ++ r =
      '[' :: '[' :: 'B' :: ']' :: ']' :: (t ++ (bE ++ r)) := by
    simp [bS, List.append_assoc]
  rw [harg, parseScan]
  have hsw : startsW bS ('[' :: '[' :: 'B' :: ']' :: ']' :: (t ++ (bE ++ r))) = true := by
    simp [bS, startsW]
  simp only [hsw, if_true]
  have hdrop5 : ('[' :: '[' :: 'B' :: ']' :: ']' :: (t ++ (bE ++ r))).drop bS.length
      = t ++ (bE ++ r) := by simp [bS]
  rw [hdrop5, hocc]
  have htake : (t ++ (bE ++ r)).take t.length = t := List.take_left t (bE ++ r)
  have hdrop : (t ++ (bE ++ r)).drop (t.length + bE.length) = r := by
    have : t ++ (bE ++ r) = (t ++ bE) ++ r := by simp [List.append_assoc]
    rw [this]
    have hlen : t.length + bE.length = (t ++ bE).length := by simp
    rw [hlen, List.drop_left]
  simp only [htake, hdrop]

theorem parseScan_nonboldLast (t : Str) (hne : t ≠ []) (hfree : firstOccur bS t = none) :
    parseScan t = [⟨t, false⟩] := by
  cases t with
  | nil => exact absurd rfl hne
  | cons c u =>
    obtain ⟨hsw, htail⟩ := firstOccur_none_cons hfree
    rw [parseScan]
    simp only [hsw, Bool.false_eq_true, if_false, htail]

theorem parseScan_nonboldStep (t r : Str) (hne : t ≠ []) (hfree : firstOccur bS t = none) :
    parseScan (t ++ bS ++ r) = ⟨t, false⟩ :: parseScan (bS ++ r) := by
  cases t with
  | nil => exact absurd rfl hne
  | cons c u =>
    obtain ⟨hsw, htail⟩ := firstOccur_none_cons hfree
    have hnsw : startsW bS ((c :: u) ++ bS ++ r) = false :=
      not_startsW_boundary r hfree (by simp [bS]) noStraddle_bS (by simp)
    have harg : (c :: u) ++ bS ++ r = c :: (u ++ (bS ++ r)) := by simp
    rw [harg] at hnsw
    have hocc : firstOccur bS (u ++ (bS ++ r)) = some u.length := by
      have := firstOccur_boundary r htail (by simp [bS]) noStraddle_bS
      simpa [List.append_assoc] using this
    rw [harg, parseScan]
    simp only [hnsw, Bool.false_eq_true, if_false, hocc]
    have htake : (c :: (u ++ (bS ++ r))).take (u.length + 1) = c :: u := by
      simp only [List.take_succ_cons]
      rw [List.take_left u (bS ++ r)]
    have hdrop : (u ++ (bS ++ r)).drop u.length = bS ++ r := List.drop_left u (bS ++ r)
    rw [htake, hdrop]

theorem mergeSegs_id (l : List Run) (hne : ∀ r ∈ l, r.text ≠ [])
    (halt : List.Chain' (fun a b => a.bold ≠ b.bold) l) : mergeSegs l = l := by
  induction l with
  | nil => rfl
  | cons s rest ih =>
    have hs : s.text.isEmpty = false := by
      have := hne s (by simp)
      simpa [List.isEmpty_iff] using this
    have hrest : mergeSegs rest = rest :=
      ih (fun r hr => hne r (by simp [hr])) halt.tail
    rw [mergeSegs]
    simp only [hs, Bool.false_eq_true, if_false, hrest]
    cases rest with
    | nil => rfl
    | cons t ts =>
      have hbd : t.bold ≠ s.bold := Ne.symm (List.chain'_cons.mp halt).1
      simp [hbd]

/-- The encoding of a run list, scanned back: each run becomes one segment. -/
theorem parseScan_encode (runs : List Run)
    (halt : List.Chain' (fun a b => a.bold ≠ b.bold) runs)
    (hne : ∀ r ∈ runs, r.text ≠ [])
    (hfree : ∀ r ∈ runs, firstOccur bS r.text = none ∧ firstOccur bE r.text = none) :
    parseScan (runsToMarkedText runs) = runs := by
  induction runs with
  | nil => rw [runsToMarkedText]; simp; rw [parseScan]
  | cons r rest ih =>
    have hner : r.text ≠ [] := hne r (by simp)
    have hfr := hfree r (by simp)
    have ihr : parseScan (runsToMarkedText rest) = rest :=
      ih halt.tail (fun x hx => hne x (by simp [hx]))
        (fun x hx => hfree x (by simp [hx]))
    by_cases hb : r.bold
    · have henc : runsToMarkedText (r :: rest) =
          bS ++ r.text ++ bE ++ runsToMarkedText rest := by
        simp [runsToMarkedText, hb, List.append_assoc]
      rw [henc, parseScan_boldStep r.text (runsToMarkedText rest) hfr.2, ihr]
      cases r with
      | mk tx bl => simp at hb; rw [hb]
    · cases rest with
      | nil =>
        have henc : runsToMarkedText [r] = r.text := by
          simp [runsToMarkedText, hb]
        rw [henc, parseScan_nonboldLast r.text hner hfr.1]
        cases r with
        | mk tx bl => simp at hb; rw [hb]
      | cons r2 rest2 =>
        have hb2 : r2.bold = true := by
          have hne2 : r.bold ≠ r2.bold := (List.chain'_cons.mp halt).1
          cases h2 : r2.bold
          · exfalso; apply hne2; simp [h2]; simpa using hb
          · rfl
        have henc : runsToMarkedText (r :: r2 :: rest2) =
            r.text ++ bS ++ (r2.text ++ bE ++ runsToMarkedText rest2) := by
          simp [runsToMarkedText, hb, hb2, List.append_assoc]
        rw [henc, parseScan_nonboldStep r.text _ hner hfr.1]
        have hrw : bS ++ (r2.text ++ bE ++ runsToMarkedText rest2) =
            runsToMarkedText (r2 :: rest2) := by
          simp [runsToMarkedText, hb2, List.append_assoc]
        rw [hrw, ihr]
        cases r with
        | mk tx bl => simp at hb; rw [hb]

/-- C1 (counterexample): the round trip fails as literally stated — a run
with empty text is dropped by the decoder, so decode(encode(runs)) need not
reproduce an arbitrary alternating run list. -/
theorem c1_counterexample :
    parse_marked_segments (runsToMarkedText [⟨[], false⟩]) ≠ [⟨[], false⟩] := by
  have henc : runsToMarkedText [⟨[], false⟩] = [] := by
    simp [runsToMarkedText]
  rw [henc, parse_marked_segments]
  rw [parseScan]
  simp [mergeSegs]

/-- C1 (amended): for every run list in which no two adjacent runs share the
same bold flag, every run text is non-empty, and no run text contains the
literal marker tokens, decoding the encoding reproduces the run list. -/
theorem c1_decode_encode (runs : List Run)
    (halt : List.Chain' (fun a b => a.bold ≠ b.bold) runs)
    (hne : ∀ r ∈ runs, r.text ≠ [])
    (hfree : ∀ r ∈ runs, firstOccur bS r.text = none ∧ firstOccur bE r.text = none) :
    parse_marked_segments (runsToMarkedText runs) = runs := by
  rw [parse_marked_segments, parseScan_encode runs halt hne hfree,
    mergeSegs_id runs hne halt]

/-- C1 witness: the amended round trip at a concrete two-run list. -/
theorem c1_decode_encode_witness :
    (List.Chain' (fun a b : Run => a.bold ≠ b.bold)
        [⟨['1', '.', 'e', '4'], true⟩, ⟨[' ', 'o', 'k'], false⟩] ∧
      (∀ r ∈ [(⟨['1', '.', 'e', '4'], true⟩ : Run), ⟨[' ', 'o', 'k'], false⟩], r.text ≠ []) ∧
      (∀ r ∈ [(⟨['1', '.', 'e', '4'], true⟩ : Run), ⟨[' ', 'o', 'k'], false⟩],
        firstOccur bS r.text = none ∧ firstOccur bE r.text = none)) ∧
    parse_marked_segments
        (runsToMarkedText [⟨['1', '.', 'e', '4'], true⟩, ⟨[' ', 'o', 'k'], false⟩]) =
      [⟨['1', '.', 'e', '4'], true⟩, ⟨[' ', 'o', 'k'], false⟩] :=
  ⟨⟨by simp, by decide, by decide⟩,
    c1_decode_encode _ (by simp) (by decide) (by decide)⟩

theorem parseScan_boldTail (u : Str) (hfree : firstOccur bE u = none) :
    parseScan (bS ++ u) = [⟨u, true⟩] := by
  have harg : bS ++ u = '[' :: '[' :: 'B' :: ']' :: ']' :: u := by simp [bS]
  rw [harg, parseScan]
  have hsw : startsW bS ('[' :: '[' :: 'B' :: ']' :: ']' :: u) = true := by
    simp [bS, startsW]
  simp only [hsw, if_true]
  have hdrop5 : ('[' :: '[' :: 'B' :: ']' :: ']' :: u).drop bS.length = u := by simp [bS]
  rw [hdrop5, hfree]

/-- C4: the decoder is total and tolerant of unbalanced markers: an
unmatched start delimiter turns the whole remainder into one bold segment,
text before a delimiter becomes a non-bold segment, and adjacent segments
with the same bold flag are merged after the scan. -/
theorem c4_parse_tolerant (t u : Str)
    (htne : t ≠ []) (htS : firstOccur bS t = none) (htE : firstOccur bE t = none)
    (hune : u ≠ []) (huE : firstOccur bE u = none) :
    parse_marked_segments (t ++ bS ++ u) = [⟨t, false⟩, ⟨u, true⟩] ∧
    parse_marked_segments (bS ++ t ++ bE ++ bS ++ u) = [⟨t ++ u, true⟩] := by
  constructor
  · rw [parse_marked_segments, parseScan_nonboldStep t u htne htS,
      parseScan_boldTail u huE]
    apply mergeSegs_id
    · intro r hr
      simp at hr
      rcases hr with h | h <;> subst h <;> simpa
    · simp
  · have harg : bS ++ t ++ bE ++ bS ++ u = bS ++ t ++ bE ++ (bS ++ u) := by
      simp [List.append_assoc]
    rw [parse_marked_segments, harg, parseScan_boldStep t (bS ++ u) htE,
      parseScan_boldTail u huE]
    have h1 : (⟨t, true⟩ : Run).text.isEmpty = false := by
      simpa [List.isEmpty_iff] using htne
    have h2 : (⟨u, true⟩ : Run).text.isEmpty = false := by
      simpa [List.isEmpty_iff] using hune
    simp [mergeSegs, h1, h2]

/-- C4 witness: the tolerant decode at concrete inputs. -/
theorem c4_parse_tolerant_witness :
    ((['a', 'b'] : Str) ≠ [] ∧ firstOccur bS ['a', 'b'] = none ∧
      firstOccur bE ['a', 'b'] = none ∧ (['c', 'd'] : Str) ≠ [] ∧
      firstOccur bE ['c', 'd'] = none) ∧
    parse_marked_segments (['a', 'b'] ++ bS ++ ['c', 'd']) =
      [⟨['a', 'b'], false⟩, ⟨['c', 'd'], true⟩] ∧
    parse_marked_segments (bS ++ ['a', 'b'] ++ bE ++ bS ++ ['c', 'd']) =
      [⟨['a', 'b'] ++ ['c', 'd'], true⟩] :=
  ⟨⟨by decide, by decide, by decide, by decide, by decide⟩,
    c4_parse_tolerant ['a', 'b'] ['c', 'd'] (by decide) (by decide) (by decide)
      (by decide) (by decide)⟩

/-- `_normalize_castling_and_times` (`chess_pdf/san.py`): normalize the
multiplication glyph and all castling variants to ASCII `O-O` forms. -/
def normalizeCastlingAndTimes (s : Str) : Str :=
  let s1 := replaceAll ['×'] ['x'] s
  let s2 := replaceAll "0-0-0".toList "O-O-O".toList s1
  let s3 := replaceAll "0-0".toList "O-O".toList s2
  let s4 := replaceAll "O-0-0".toList "O-O-O".toList s3
  let s5 := replaceAll "O-0".toList "O-O".toList s4
  replaceAll "0-O".toList "O-O".toList s5

/-- C5: castling normalization rewrites every variant among `0-0`, `0-0-0`,
`O-0`, `O-0-0`, `0-O` to the corresponding `O-O` / `O-O-O` form, also when
embedded in running text. -/
theorem c5_castling :
    normalizeCastlingAndTimes "0-0-0".toList = "O-O-O".toList ∧
    normalizeCastlingAndTimes "0-O".toList = "O-O".toList ∧
    normalizeCastlingAndTimes "0-0".toList = "O-O".toList ∧
    normalizeCastlingAndTimes "O-0".toList = "O-O".toList ∧
    normalizeCastlingAndTimes "O-0-0".toList = "O-O-O".toList ∧
    normalizeCastlingAndTimes "po 0-0-0 i 0-O!".toList = "po O-O-O i O-O!".toList := by
  decide

/-! Text-fit engine (`chess_pdf/rendering.py`). Python floats are modelled
as exact rationals; the external font-metrics collaborator
(`text_width_fitz`) is a function parameter. -/

/-- A rectangle in the style of `fitz.Rect`. -/
structure Rect where
  x0 : ℚ
  y0 : ℚ
  x1 : ℚ
  y1 : ℚ

def Rect.width (r : Rect) : ℚ := r.x1 - r.x0

def Rect.height (r : Rect) : ℚ := r.y1 - r.y0

/-- The font-metrics collaborator: text, font size, font name ↦ width. -/
abbrev WidthFn := Str → ℚ → Str → ℚ

/-- Python `max(a, b)` on two numbers, as a computable function. -/
def pyMax (a b : ℚ) : ℚ := if a ≤ b then b else a

theorem pyMax_eq_max (a b : ℚ) : pyMax a b = max a b := (max_def a b).symm

/-- Inner word loop of `_measure_height_dual`: accumulate words into the
current line, starting a new line on width overflow. State is
(current line width, line count). -/
def mhdWords (rectW : ℚ) (w : Str → ℚ) (sp : ℚ) :
    List Str → ℚ × Nat → ℚ × Nat
  | [], st => st
  | word :: rest, (curw, lines) =>
    let ww := w word
    let s := if curw > 0 then sp else 0
    if curw + s + ww ≤ rectW then mhdWords rectW w sp rest (curw + s + ww, lines)
    else mhdWords rectW w sp rest (ww, lines + 1)

/-- Parts loop of `_measure_height_dual`: internal newlines are hard breaks. -/
def mhdParts (rectW : ℚ) (w : Str → ℚ) (sp : ℚ) :
    List Str → ℚ × Nat → ℚ × Nat
  | [], st => st
  | [part], st => mhdWords rectW w sp (splitWs part) st
  | part :: rest, st =>
    let st' := mhdWords rectW w sp (splitWs part) st
    mhdParts rectW w sp rest (0, st'.2 + 1)

/-- Segment loop of `_measure_height_dual`. -/
def mhdSegs (wfn : WidthFn) (rectW : ℚ) (regularSize boldSize : ℚ)
    (fontRegular fontBold : Str) : List Run → ℚ × Nat → ℚ × Nat
  | [], st => st
  | seg :: rest, st =>
    let size := if seg.bold then boldSize else regularSize
    let font := if seg.bold then fontBold else fontRegular
    let w := fun t => wfn t size font
    let st' := mhdParts rectW w (w [' ']) (splitOnChar '\n' seg.text) st
    mhdSegs wfn rectW regularSize boldSize fontRegular fontBold rest st'

/-- `_measure_height_dual` (`chess_pdf/rendering.py`): estimated height of
word-wrapped mixed-style segments. -/
def measureHeightDual (wfn : WidthFn) (segments : List Run) (rectW : ℚ)
    (regularSize boldSize : ℚ) (fontRegular fontBold : Str) : ℚ :=
  if rectW ≤ 0 then 1000000000
  else
    let lineH := pyMax regularSize boldSize * (59 / 50)
    let st := mhdSegs wfn rectW regularSize boldSize fontRegular fontBold
      segments (0, 1)
    (st.2 : ℚ) * lineH

/-- The 14-iteration bisection loop of `choose_sizes_that_fit`, with the
`hi - lo < 0.02` early break (checked after the update, as in the source). -/
def bsLoop (fits : ℚ → Bool) : Nat → ℚ × ℚ → ℚ × ℚ
  | 0, st => st
  | n + 1, (lo, hi) =>
    if fits ((lo + hi) / 2) then
      if hi - (lo + hi) / 2 < 1 / 50 then ((lo + hi) / 2, hi)
      else bsLoop fits n ((lo + hi) / 2, hi)
    else
      if (lo + hi) / 2 - lo < 1 / 50 then (lo, (lo + hi) / 2)
      else bsLoop fits n (lo, (lo + hi) / 2)

/-- `choose_sizes_that_fit` (`chess_pdf/rendering.py`): keep the base sizes
if they fit, otherwise binary-search a scale in [0.6, 1.0]. -/
def chooseSizesThatFit (wfn : WidthFn) (segments : List Run) (rect : Rect)
    (baseRegular boldScale : ℚ) (fontRegular fontBold : Str) : ℚ × ℚ :=
  let reg := baseRegular
  let bold := baseRegular * boldScale
  let H := measureHeightDual wfn segments rect.width reg bold fontRegular fontBold
  if H ≤ rect.height then (reg, bold)
  else
    let fits := fun mid => decide
      (measureHeightDual wfn segments rect.width (baseRegular * mid)
        (baseRegular * mid * boldScale) fontRegular fontBold ≤ rect.height)
    let lo := (bsLoop fits 14 (3 / 5, 1)).1
    (baseRegular * lo, baseRegular * lo * boldScale)

theorem bsLoop_bounds (f : ℚ → Bool) :
    ∀ (n : Nat) (lo hi : ℚ), lo ≤ hi →
      lo ≤ (bsLoop f n (lo, hi)).1 ∧ (bsLoop f n (lo, hi)).1 ≤ hi := by
  intro n
  induction n with
  | zero => intro lo hi h; simp [bsLoop]; exact h
  | succ n ih =>
    intro lo hi h
    rw [bsLoop]
    have hmidlo : lo ≤ (lo + hi) / 2 := by linarith
    have hmidhi : (lo + hi) / 2 ≤ hi := by linarith
    by_cases hf : f ((lo + hi) / 2) = true
    · simp only [hf, if_true]
      by_cases hbrk : hi - (lo + hi) / 2 < 1 / 50
      · simp only [hbrk, if_true]
        exact ⟨hmidlo, hmidhi⟩
      · simp only [hbrk, if_false]
        have := ih ((lo + hi) / 2) hi hmidhi
        exact ⟨le_trans hmidlo this.1, this.2⟩
    · simp only [Bool.not_eq_true] at hf
      simp only [hf, Bool.false_eq_true, if_false]
      by_cases hbrk : (lo + hi) / 2 - lo < 1 / 50
      · simp only [hbrk, if_true]
        exact ⟨le_refl lo, h⟩
      · simp only [hbrk, if_false]
        have := ih lo ((lo + hi) / 2) hmidlo
        exact ⟨this.1, le_trans this.2 hmidhi⟩

theorem bsLoop_mono (f1 f2 : ℚ → Bool)
    (himp : ∀ x, f1 x = true → f2 x = true) :
    ∀ (n : Nat) (lo hi : ℚ), lo ≤ hi →
      (bsLoop f1 n (lo, hi)).1 ≤ (bsLoop f2 n (lo, hi)).1 := by
  intro n
  induction n with
  | zero => intro lo hi h; simp [bsLoop]
  | succ n ih =>
    intro lo hi h
    rw [bsLoop, bsLoop]
    have hmidlo : lo ≤ (lo + hi) / 2 := by linarith
    have hmidhi : (lo + hi) / 2 ≤ hi := by linarith
    by_cases hf1 : f1 ((lo + hi) / 2) = true
    · have hf2 : f2 ((lo + hi) / 2) = true := himp _ hf1
      simp only [hf1, hf2, if_true]
      by_cases hbrk : hi - (lo + hi) / 2 < 1 / 50
      · simp only [hbrk, if_true]
        exact le_refl _
      · simp only [hbrk, if_false]
        exact ih ((lo + hi) / 2) hi hmidhi
    · simp only [Bool.not_eq_true] at hf1
      simp only [hf1, Bool.false_eq_true, if_false]
      by_cases hf2 : f2 ((lo + hi) / 2) = true
      · -- run 1 goes below mid, run 2 above mid
        simp only [hf2, if_true]
        have h1 : (if (lo + hi) / 2 - lo < 1 / 50 then ((lo, (lo + hi) / 2) : ℚ × ℚ)
            else bsLoop f1 n (lo, (lo + hi) / 2)).1 ≤ (lo + hi) / 2 := by
          by_cases hbrk : (lo + hi) / 2 - lo < 1 / 50
          · simp only [hbrk, if_true]; exact hmidlo
          · simp only [hbrk, if_false]
            exact (bsLoop_bounds f1 n lo ((lo + hi) / 2) hmidlo).2
        have h2 : (lo + hi) / 2 ≤
            (if hi - (lo + hi) / 2 < 1 / 50 then ((((lo + hi) / 2, hi)) : ℚ × ℚ)
            else bsLoop f2 n ((lo + hi) / 2, hi)).1 := by
          by_cases hbrk : hi - (lo + hi) / 2 < 1 / 50
          · simp only [hbrk, if_true]
            exact le_refl _
          · simp only [hbrk, if_false]
            exact (bsLoop_bounds f2 n ((lo + hi) / 2) hi hmidhi).1
        exact le_trans h1 h2
      · simp only [Bool.not_eq_true] at hf2
        simp only [hf2, Bool.false_eq_true, if_false]
        by_cases hbrk : (lo + hi) / 2 - lo < 1 / 50
        · simp only [hbrk, if_true]
          exact le_refl _
        · simp only [hbrk, if_false]
          exact ih lo ((lo + hi) / 2) hmidlo

/-- C8: for fixed segments, width, baseline size, bold scale and fonts,
a taller rectangle never yields a smaller chosen regular (or bold) size. -/
theorem c8_choose_sizes_monotone (wfn : WidthFn) (segments : List Run)
    (r1 r2 : Rect) (base boldScale : ℚ) (fR fB : Str)
    (hw : r1.width = r2.width) (hh : r1.height ≤ r2.height)
    (hbase : 0 ≤ base) (hscale : 0 ≤ boldScale) :
    (chooseSizesThatFit wfn segments r1 base boldScale fR fB).1 ≤
      (chooseSizesThatFit wfn segments r2 base boldScale fR fB).1 ∧
    (chooseSizesThatFit wfn segments r1 base boldScale fR fB).2 ≤
      (chooseSizesThatFit wfn segments r2 base boldScale fR fB).2 := by
  unfold chooseSizesThatFit
  rw [hw]
  set H := measureHeightDual wfn segments r2.width base (base * boldScale) fR fB with hH
  by_cases h1 : H ≤ r1.height
  · have h2 : H ≤ r2.height := le_trans h1 hh
    simp only [h1, h2, if_true]
    exact ⟨le_refl _, le_refl _⟩
  · by_cases h2 : H ≤ r2.height
    · simp only [h1, h2, if_true, if_false]
      have hb := bsLoop_bounds
        (fun mid => decide (measureHeightDual wfn segments r2.width (base * mid)
          (base * mid * boldScale) fR fB ≤ r1.height)) 14 (3 / 5) 1 (by norm_num)
      have hlo1 : (bsLoop (fun mid => decide (measureHeightDual wfn segments r2.width
          (base * mid) (base * mid * boldScale) fR fB ≤ r1.height)) 14 (3 / 5, 1)).1 ≤ 1 :=
        hb.2
      constructor
      · calc base * _ ≤ base * 1 := by
              apply mul_le_mul_of_nonneg_left hlo1 hbase
          _ = base := by ring
      · have : base * (bsLoop (fun mid => decide (measureHeightDual wfn segments r2.width
            (base * mid) (base * mid * boldScale) fR fB ≤ r1.height)) 14 (3 / 5, 1)).1 ≤
            base := by
          calc base * _ ≤ base * 1 := mul_le_mul_of_nonneg_left hlo1 hbase
            _ = base := by ring
        exact mul_le_mul_of_nonneg_right this hscale
    · simp only [h1, h2, if_false]
      have himp : ∀ x, (fun mid => decide (measureHeightDual wfn segments r2.width
          (base * mid) (base * mid * boldScale) fR fB ≤ r1.height)) x = true →
          (fun mid => decide (measureHeightDual wfn segments r2.width
            (base * mid) (base * mid * boldScale) fR fB ≤ r2.height)) x = true := by
        intro x hx
        simp only [decide_eq_true_eq] at hx ⊢
        exact le_trans hx hh
      have hmono := bsLoop_mono _ _ himp 14 (3 / 5) 1 (by norm_num)
      constructor
      · exact mul_le_mul_of_nonneg_left hmono hbase
      · exact mul_le_mul_of_nonneg_right (mul_le_mul_of_nonneg_left hmono hbase) hscale

/-- C8 witness: monotone size choice at concrete rectangles. -/
theorem c8_choose_sizes_monotone_witness :
    ((⟨0, 0, 50, 20⟩ : Rect).width = (⟨0, 0, 50, 40⟩ : Rect).width ∧
      (⟨0, 0, 50, 20⟩ : Rect).height ≤ (⟨0, 0, 50, 40⟩ : Rect).height ∧
      (0 : ℚ) ≤ 10 ∧ (0 : ℚ) ≤ 53 / 50) ∧
    (chooseSizesThatFit (fun t s _ => (t.length : ℚ) * s * (3 / 5))
        [⟨"hello world again".toList, false⟩] ⟨0, 0, 50, 20⟩ 10 (53 / 50) [] []).1 ≤
      (chooseSizesThatFit (fun t s _ => (t.length : ℚ) * s * (3 / 5))
        [⟨"hello world again".toList, false⟩] ⟨0, 0, 50, 40⟩ 10 (53 / 50) [] []).1 ∧
    (chooseSizesThatFit (fun t s _ => (t.length : ℚ) * s * (3 / 5))
        [⟨"hello world again".toList, false⟩] ⟨0, 0, 50, 20⟩ 10 (53 / 50) [] []).2 ≤
      (chooseSizesThatFit (fun t s _ => (t.length : ℚ) * s * (3 / 5))
        [⟨"hello world again".toList, false⟩] ⟨0, 0, 50, 40⟩ 10 (53 / 50) [] []).2 :=
  ⟨⟨by norm_num [Rect.width], by norm_num [Rect.height], by norm_num, by norm_num⟩,
    c8_choose_sizes_monotone _ _ _ _ _ _ _ _ (by norm_num [Rect.width])
      (by norm_num [Rect.height]) (by norm_num) (by norm_num)⟩

/-! Emission state machine of `render_marked_segments`
(`chess_pdf/rendering.py`), with `page.insert_text` modelled by collecting
the emitted lines (each a list of same-style runs, empty texts skipped as
in `flush_line`). -/

/-- Python `line_runs[-1]["text"].endswith("\n")`. -/
def lastEndsNl (rs : List Run) : Bool :=
  match rs.getLast? with
  | some r =>
    match r.text.getLast? with
    | some c => c == '\n'
    | none => false
  | none => false

/-- Append `candidate` into `line_runs`, merging into the last run when the
bold flag matches (`line_runs[-1]["text"] += candidate`). -/
def addRunLast (b : Bool) (txt : Str) : List Run → List Run
  | [] => [⟨txt, b⟩]
  | [r] => if r.bold == b then [⟨r.text ++ txt, b⟩] else [r, ⟨txt, b⟩]
  | r :: rest => r :: addRunLast b txt rest

/-- Mutable state of `render_marked_segments`: emitted lines, pending line
runs, current line width, current baseline. -/
structure RenderSt where
  lines : List (List Run)
  lineRuns : List Run
  curw : ℚ
  y : ℚ

/-- `flush_line`: emit the pending runs (skipping empty texts) and advance
the baseline. -/
def flushLine (lineH : ℚ) (st : RenderSt) : RenderSt :=
  if st.lineRuns.isEmpty then st
  else
    { lines := st.lines ++ [st.lineRuns.filter (fun r => !r.text.isEmpty)],
      lineRuns := [], curw := 0, y := st.y + lineH }

/-- `append_token`: place a token on the current line, flushing first on
width overflow unless vertical space is exhausted (then the token is
dropped). -/
def appendToken (wfn : WidthFn) (rect : Rect) (regularSize boldSize : ℚ)
    (fontRegular fontBold : Str) (lineH : ℚ) (tok : Str) (isBold : Bool)
    (st : RenderSt) : RenderSt :=
  if tok.isEmpty then st
  else
    let w := fun (t : Str) => wfn t (if isBold then boldSize else regularSize)
      (if isBold then fontBold else fontRegular)
    let leadingSpace : Str :=
      if !st.lineRuns.isEmpty && !lastEndsNl st.lineRuns then [' '] else []
    let candidate := leadingSpace ++ tok
    let addW := w candidate
    if st.curw > 0 ∧ st.curw + addW > rect.width then
      if st.y + lineH > rect.y1 + lineH * 2 then st
      else
        let st' := flushLine lineH st
        { st' with lineRuns := addRunLast isBold tok st'.lineRuns,
                   curw := st'.curw + w tok }
    else
      { st with lineRuns := addRunLast isBold candidate st.lineRuns,
                curw := st.curw + addW }

/-- Word loop of `render_marked_segments` for one part. -/
def renderWords (wfn : WidthFn) (rect : Rect) (regularSize boldSize : ℚ)
    (fontRegular fontBold : Str) (lineH : ℚ) (isBold : Bool) :
    List Str → RenderSt → RenderSt
  | [], st => st
  | word :: rest, st =>
    renderWords wfn rect regularSize boldSize fontRegular fontBold lineH isBold
      rest
      (appendToken wfn rect regularSize boldSize fontRegular fontBold lineH
        word isBold st)

/-- Part loop of `render_marked_segments`: hard line breaks between parts;
the second component is `true` when the engine ran out of vertical space
and returned early. -/
def renderParts (wfn : WidthFn) (rect : Rect) (regularSize boldSize : ℚ)
    (fontRegular fontBold : Str) (lineH : ℚ) (isBold : Bool) :
    List Str → RenderSt → RenderSt × Bool
  | [], st => (st, false)
  | [part], st =>
    (renderWords wfn rect regularSize boldSize fontRegular fontBold lineH
      isBold (splitWs part) st, false)
  | part :: rest, st =>
    let st' := renderWords wfn rect regularSize boldSize fontRegular fontBold
      lineH isBold (splitWs part) st
    if st'.y + lineH > rect.y1 + lineH * 2 then (st', true)
    else renderParts wfn rect regularSize boldSize fontRegular fontBold lineH
      isBold rest (flushLine lineH st')

/-- Segment loop of `render_marked_segments`. -/
def renderSegsLoop (wfn : WidthFn) (rect : Rect) (regularSize boldSize : ℚ)
    (fontRegular fontBold : Str) (lineH : ℚ) :
    List Run → RenderSt → RenderSt × Bool
  | [], st => (st, false)
  | seg :: rest, st =>
    let r := renderParts wfn rect regularSize boldSize fontRegular fontBold
      lineH seg.bold (splitOnChar '\n' seg.text) st
    if r.2 then r
    else renderSegsLoop wfn rect regularSize boldSize fontRegular fontBold
      lineH rest r.1

/-- `render_marked_segments` (`chess_pdf/rendering.py`): the list of lines
actually emitted to the page, in order. -/
def renderMarkedSegments (wfn : WidthFn) (segments : List Run) (rect : Rect)
    (regularSize boldSize : ℚ) (fontRegular fontBold : Str) :
    List (List Run) :=
  if segments.isEmpty then []
  else
    let lineH := pyMax regularSize boldSize * (59 / 50)
    let st0 : RenderSt := ⟨[], [], 0, rect.y0 + pyMax regularSize boldSize⟩
    let r := renderSegsLoop wfn rect regularSize boldSize fontRegular fontBold
      lineH segments st0
    if r.2 then r.1.lines
    else if !r.1.lineRuns.isEmpty && decide (r.1.y ≤ rect.y1 + lineH * 2) then
      (flushLine lineH r.1).lines
    else r.1.lines

theorem takeWhile_all {α : Type} (p : α → Bool) (l : List α)
    (h : ∀ a ∈ l, p a = true) : l.takeWhile p = l := by
  induction l with
  | nil => rfl
  | cons c t ih =>
    simp only [List.takeWhile]
    rw [h c (by simp)]
    simp [ih fun a ha => h a (by simp [ha])]

theorem dropWhile_all {α : Type} (p : α → Bool) (l : List α)
    (h : ∀ a ∈ l, p a = true) : l.dropWhile p = [] := by
  induction l with
  | nil => rfl
  | cons c t ih =>
    simp only [List.dropWhile]
    rw [h c (by simp)]
    simp [ih fun a ha => h a (by simp [ha])]

theorem splitOnChar_single (sep : Char) (w : Str)
    (h : ∀ a ∈ w, (a == sep) = false) : splitOnChar sep w = [w] := by
  induction w with
  | nil => rfl
  | cons c t ih =>
    rw [splitOnChar]
    rw [h c (by simp)]
    simp only [Bool.false_eq_true, if_false]
    rw [ih fun a ha => h a (by simp [ha])]

theorem splitWs_single (w : Str) (hne : w ≠ [])
    (h : ∀ a ∈ w, pyIsSpace a = false) : splitWs w = [w] := by
  cases w with
  | nil => exact absurd rfl hne
  | cons c t =>
    rw [splitWs]
    simp only [List.length_cons]
    rw [splitWsGo]
    rw [h c (by simp)]
    simp only [Bool.false_eq_true, if_false]
    have htake : (c :: t).takeWhile (fun a => !pyIsSpace a) = c :: t :=
      takeWhile_all _ _ (fun a ha => by simp [h a ha])
    have hdrop : t.dropWhile (fun a => !pyIsSpace a) = [] :=
      dropWhile_all _ _ (fun a ha => by simp [h a (by simp [ha])])
    rw [htake, hdrop]
    rw [splitWsGo]

/-- A lone word wider than the rectangle makes `_measure_height_dual`
count two lines: the initial `lines = 1` plus the overflow increment. -/
theorem measure_single_wide (wfn : WidthFn) (word : Str) (b : Bool)
    (regS boldS : ℚ) (fR fB : Str) (rectW : ℚ)
    (hne : word ≠ []) (hnw : ∀ c ∈ word, pyIsSpace c = false)
    (hwpos : 0 < rectW)
    (hwide : rectW <
      wfn word (if b then boldS else regS) (if b then fB else fR)) :
    measureHeightDual wfn [⟨word, b⟩] rectW regS boldS fR fB =
      2 * (pyMax regS boldS * (59 / 50)) := by
  have hnl : ∀ a ∈ word, (a == '\n') = false := by
    intro a ha
    by_contra hc
    simp only [Bool.not_eq_false, beq_iff_eq] at hc
    have := hnw a ha
    rw [hc] at this
    simp [pyIsSpace] at this
  have hsplit1 : splitOnChar '\n' word = [word] := splitOnChar_single _ _ hnl
  have hsplit2 : splitWs word = [word] := splitWs_single _ hne hnw
  rw [measureHeightDual]
  rw [if_neg (by linarith)]
  rw [mhdSegs]
  simp only [hsplit1]
  rw [mhdParts]
  simp only [hsplit2]
  rw [mhdWords]
  have hc : ¬((0 : ℚ) + (if (0 : ℚ) > 0 then
      wfn [' '] (if b = true then boldS else regS) (if b = true then fB else fR)
      else 0) + wfn word (if b = true then boldS else regS)
      (if b = true then fB else fR) ≤ rectW) := by
    rw [if_neg (lt_irrefl 0)]
    intro hle
    have : wfn word (if b = true then boldS else regS)
        (if b = true then fB else fR) ≤ rectW := by linarith
    exact absurd this (not_le.mpr hwide)
  rw [if_neg hc]
  rw [mhdWords, mhdSegs]
  norm_num

/-- C7 (amended): a single word wider than the rectangle is still emitted,
alone on the only emitted line, and `_measure_height_dual` counts it as two
line heights (the initial line plus the overflow increment). -/
theorem c7_long_word (wfn : WidthFn) (rect : Rect) (word : Str) (b : Bool)
    (regS boldS : ℚ) (fR fB : Str)
    (hne : word ≠ []) (hnw : ∀ c ∈ word, pyIsSpace c = false)
    (hreg : 0 ≤ regS) (hbold : 0 ≤ boldS) (hy : rect.y0 ≤ rect.y1)
    (hwpos : 0 < rect.width)
    (hwide : rect.width <
      wfn word (if b then boldS else regS) (if b then fB else fR)) :
    renderMarkedSegments wfn [⟨word, b⟩] rect regS boldS fR fB = [[⟨word, b⟩]] ∧
    measureHeightDual wfn [⟨word, b⟩] rect.width regS boldS fR fB =
      2 * (pyMax regS boldS * (59 / 50)) := by
  have hwE : word.isEmpty = false := by
    cases word with
    | nil => exact absurd rfl hne
    | cons c t => rfl
  have hnl : ∀ a ∈ word, (a == '\n') = false := by
    intro a ha
    by_contra hc
    simp only [Bool.not_eq_false, beq_iff_eq] at hc
    have := hnw a ha
    rw [hc] at this
    simp [pyIsSpace] at this
  have hsplit1 : splitOnChar '\n' word = [word] := splitOnChar_single _ _ hnl
  have hsplit2 : splitWs word = [word] := splitWs_single _ hne hnw
  have hm : 0 ≤ pyMax regS boldS := by
    rw [pyMax_eq_max]; exact le_trans hreg (le_max_left _ _)
  constructor
  · have happ : appendToken wfn rect regS boldS fR fB
        (pyMax regS boldS * (59 / 50)) word b ⟨[], [], 0, rect.y0 + pyMax regS boldS⟩ =
        ⟨[], [⟨word, b⟩],
          0 + wfn word (if b then boldS else regS) (if b then fB else fR),
          rect.y0 + pyMax regS boldS⟩ := by
      rw [appendToken]
      simp only [hwE, Bool.false_eq_true, if_false, lastEndsNl, List.isEmpty_nil,
        Bool.not_true, Bool.false_and, List.nil_append]
      have hc : ¬((0 : ℚ) > 0 ∧
          (0 : ℚ) + wfn word (if b = true then boldS else regS)
            (if b = true then fB else fR) > rect.width) := by
        rintro ⟨h0, _⟩
        exact lt_irrefl 0 h0
      rw [if_neg hc]
      simp [addRunLast]
    rw [renderMarkedSegments]
    simp only [List.isEmpty_cons, if_false]
    rw [renderSegsLoop]
    simp only [hsplit1]
    rw [renderParts]
    simp only [hsplit2]
    rw [renderWords, renderWords, happ]
    rw [renderSegsLoop]
    have hyok : rect.y0 + pyMax regS boldS ≤
        rect.y1 + pyMax regS boldS * (59 / 50) * 2 := by
      nlinarith [hm, hy]
    simp [flushLine, hwE, hyok]
  · exact measure_single_wide wfn word b regS boldS fR fB rect.width hne hnw
      hwpos hwide

/-- C7 (counterexample): a lone word wider than the rectangle is measured
by `_measure_height_dual` as two line heights, not as one line of its own
(`lines` starts at 1 and the overflow branch increments it). -/
theorem c7_counterexample :
    measureHeightDual (fun t s _ => (t.length : ℚ) * s * (3 / 5))
        [⟨['v', 'e', 'r', 'y', 'l', 'o', 'n', 'g', 'w', 'o', 'r', 'd'], false⟩]
        50 10 10 [] [] ≠
      pyMax (10 : ℚ) 10 * (59 / 50) := by
  rw [measure_single_wide (fun t s _ => (t.length : ℚ) * s * (3 / 5))
    ['v', 'e', 'r', 'y', 'l', 'o', 'n', 'g', 'w', 'o', 'r', 'd'] false 10 10 [] [] 50
    (by decide) (by decide) (by norm_num) (by norm_num)]
  rw [pyMax]
  norm_num

/-- C7 witness: the amended statement at a concrete wide word. -/
theorem c7_long_word_witness :
    (("verylongword".toList : Str) ≠ [] ∧
      (∀ c ∈ "verylongword".toList, pyIsSpace c = false) ∧
      (0 : ℚ) ≤ 10 ∧ (0 : ℚ) ≤ 10 ∧ (⟨0, 0, 50, 30⟩ : Rect).y0 ≤ (⟨0, 0, 50, 30⟩ : Rect).y1 ∧
      (0 : ℚ) < (⟨0, 0, 50, 30⟩ : Rect).width ∧
      (⟨0, 0, 50, 30⟩ : Rect).width <
        (fun (t : Str) (s : ℚ) (_ : Str) => (t.length : ℚ) * s * (3 / 5))
          "verylongword".toList (if false then 10 else 10) (if false then [] else [])) ∧
    renderMarkedSegments (fun t s _ => (t.length : ℚ) * s * (3 / 5))
        [⟨"verylongword".toList, false⟩] ⟨0, 0, 50, 30⟩ 10 10 [] [] =
      [[⟨"verylongword".toList, false⟩]] ∧
    measureHeightDual (fun t s _ => (t.length : ℚ) * s * (3 / 5))
        [⟨"verylongword".toList, false⟩] (⟨0, 0, 50, 30⟩ : Rect).width 10 10 [] [] =
      2 * (pyMax 10 10 * (59 / 50)) :=
  ⟨⟨by decide, by decide, by norm_num, by norm_num, by norm_num [Rect.y0],
      by norm_num [Rect.width], by norm_num [Rect.width]⟩,
    c7_long_word (fun t s _ => (t.length : ℚ) * s * (3 / 5)) ⟨0, 0, 50, 30⟩
      "verylongword".toList false 10 10 [] [] (by decide) (by decide)
      (by norm_num) (by norm_num) (by norm_num) (by norm_num [Rect.width])
      (by norm_num [Rect.width])⟩

/-! Style projector (`chess_pdf/translation_core.py`):
`_snap_cut_to_boundary` and `_project_style_runs_onto_text`. -/

/-- `text[i].isspace()`; callers guarantee the index is in range, the
default is immaterial. -/
def spaceAt (text : Str) (i : Nat) : Bool := pyIsSpace (text.getD i 'x')

/-- The `for delta in range(1, window + 1)` search of
`_snap_cut_to_boundary`: nearest whitespace boundary, left first. -/
def snapGo (text : Str) (lo hi cut : Nat) : Nat → Nat → Nat
  | _, 0 => cut
  | delta, rem + 1 =>
    let left := cut - delta
    if lo < left ∧ (spaceAt text (left - 1) ∨ (left < text.length ∧ spaceAt text left))
    then left
    else
      let right := cut + delta
      if right < hi ∧ (spaceAt text (right - 1) ∨ (right < text.length ∧ spaceAt text right))
      then right
      else snapGo text lo hi cut (delta + 1) rem

/-- Python `round()` on an exact rational: round half to even. -/
def roundHalfEven (x : ℚ) : Int :=
  if x - (⌊x⌋ : ℚ) < 1 / 2 then ⌊x⌋
  else if (1 : ℚ) / 2 < x - (⌊x⌋ : ℚ) then ⌊x⌋ + 1
  else if ⌊x⌋ % 2 = 0 then ⌊x⌋ else ⌊x⌋ + 1

/-- `_snap_cut_to_boundary` (`chess_pdf/translation_core.py`). -/
def snapCutToBoundary (text : Str) (rawCut : Int) (lo hi window : Nat) : Nat :=
  let cut : Nat := (max (lo : Int) (min (hi : Int) rawCut)).toNat
  if cut ≤ lo ∨ hi ≤ cut then cut
  else if spaceAt text (cut - 1) ∨ (cut < text.length ∧ spaceAt text cut) then cut
  else snapGo text lo hi cut 1 window

/-- The cut-point loop of `_project_style_runs_onto_text`: proportional raw
cuts, snapped to whitespace, clamped to be non-decreasing. -/
def cutsGo (target : Str) (total textLen : Nat) :
    List Nat → Nat → Nat → List Nat
  | [], _, _ => []
  | w :: ws, cumulative, prev =>
    let cum := cumulative + w
    let raw := roundHalfEven ((textLen : ℚ) * (cum : ℚ) / (total : ℚ))
    let snapped := snapCutToBoundary target raw prev textLen 24
    let snapped2 := if snapped < prev then prev else snapped
    snapped2 :: cutsGo target total textLen ws cum snapped2

/-- The slicing loop of `_project_style_runs_onto_text`:
`zip(style_runs, cuts + [text_len])` against a moving cursor. -/
def mkPieces (target : Str) : List Run → List Nat → Nat → List Run
  | r :: rs, e :: es, cursor =>
    ⟨sliceStr target cursor e, r.bold⟩ :: mkPieces target rs es e
  | _, _, _ => []

/-- `_project_style_runs_onto_text` (`chess_pdf/translation_core.py`). -/
def projectStyleRunsOntoText (styleRuns : List Run) (target : Str) : List Run :=
  if target.isEmpty then []
  else
    match styleRuns with
    | [] => [⟨target, false⟩]
    | [r] => [⟨target, r.bold⟩]
    | r1 :: r2 :: rest =>
      let weights := (r1 :: r2 :: rest).map (fun r => max 1 r.text.length)
      let total := max 1 weights.sum
      let cuts := cutsGo target total target.length weights.dropLast 0 0
      let projected := mergeSegs
        (mkPieces target (r1 :: r2 :: rest) (cuts ++ [target.length]) 0)
      if projected.isEmpty then [⟨target, false⟩] else projected

theorem mergeSegs_concat (l : List Run) :
    ((mergeSegs l).map Run.text).flatten = (l.map Run.text).flatten := by
  induction l with
  | nil => rfl
  | cons s rest ih =>
    rw [mergeSegs]
    by_cases hs : s.text.isEmpty
    · have : s.text = [] := by simpa [List.isEmpty_iff] using hs
      simp [hs, ih, this]
    · simp only [hs, Bool.false_eq_true, if_false]
      cases hm : mergeSegs rest with
      | nil =>
        have : (rest.map Run.text).flatten = [] := by rw [← ih, hm]; rfl
        simp [this]
      | cons t ts =>
        by_cases hb : t.bold == s.bold
        · simp only [hb, if_true]
          have : ((t :: ts).map Run.text).flatten = (rest.map Run.text).flatten := by
            rw [← ih, hm]
          simp only [List.map_cons, List.flatten_cons] at this ⊢
          rw [← this, List.append_assoc]
        · simp only [hb, Bool.false_eq_true, if_false]
          have : ((t :: ts).map Run.text).flatten = (rest.map Run.text).flatten := by
            rw [← ih, hm]
          simp only [List.map_cons, List.flatten_cons] at this ⊢
          rw [← this]

theorem mergeSegs_nonempty (l : List Run) :
    ∀ x ∈ mergeSegs l, x.text ≠ [] := by
  induction l with
  | nil => intro x hx; cases hx
  | cons s rest ih =>
    intro x hx
    rw [mergeSegs] at hx
    by_cases hs : s.text.isEmpty
    · rw [if_pos hs] at hx
      exact ih x hx
    · rw [if_neg (by simpa using hs)] at hx
      have hsne : s.text ≠ [] := by simpa [List.isEmpty_iff] using hs
      cases hm : mergeSegs rest with
      | nil =>
        rw [hm] at hx
        simp at hx
        subst hx
        exact hsne
      | cons t ts =>
        rw [hm] at hx
        by_cases hb : t.bold == s.bold
        · simp only [hb, if_true] at hx
          rcases List.mem_cons.mp hx with h | h
          · subst h
            simp only [ne_eq, List.append_eq_nil]
            rintro ⟨h1, _⟩
            exact hsne h1
          · exact ih x (by rw [hm]; exact List.mem_cons_of_mem t h)
        · simp only [hb, Bool.false_eq_true, if_false] at hx
          rcases List.mem_cons.mp hx with h | h
          · subst h; exact hsne
          · exact ih x (by rw [hm]; exact h)

theorem mergeSegs_alt (l : List Run) :
    List.Chain' (fun a b : Run => a.bold ≠ b.bold) (mergeSegs l) := by
  induction l with
  | nil => simp [mergeSegs]
  | cons s rest ih =>
    rw [mergeSegs]
    by_cases hs : s.text.isEmpty
    · rw [if_pos hs]; exact ih
    · rw [if_neg (by simpa using hs)]
      cases hm : mergeSegs rest with
      | nil => simp
      | cons t ts =>
        rw [hm] at ih
        by_cases hb : t.bold == s.bold
        · simp only [hb, if_true]
          have hbeq : t.bold = s.bold := by simpa using hb
          cases ts with
          | nil => simp
          | cons u ts2 =>
            have h1 := (List.chain'_cons.mp ih).1
            have h2 := (List.chain'_cons.mp ih).2
            exact List.chain'_cons.mpr ⟨by simpa [hbeq] using h1, h2⟩
        · simp only [hb, Bool.false_eq_true, if_false]
          have hbne : s.bold ≠ t.bold := fun hc => by simp [hc] at hb
          exact List.chain'_cons.mpr ⟨hbne, ih⟩

theorem snapGo_bounds (text : Str) (lo hi cut : Nat) (h1 : lo ≤ cut)
    (h2 : cut ≤ hi) : ∀ (delta rem : Nat),
    lo ≤ snapGo text lo hi cut delta rem ∧ snapGo text lo hi cut delta rem ≤ hi := by
  intro delta rem
  induction rem generalizing delta with
  | zero => exact ⟨h1, h2⟩
  | succ n ih =>
    rw [snapGo]
    dsimp only
    split
    · rename_i hl
      obtain ⟨hl1, _⟩ := hl
      exact ⟨by omega, by omega⟩
    · split
      · rename_i hr
        obtain ⟨hr1, _⟩ := hr
        exact ⟨by omega, by omega⟩
      · exact ih (delta + 1)

theorem snapCut_bounds (text : Str) (rawCut : Int) (lo hi window : Nat)
    (h : lo ≤ hi) :
    lo ≤ snapCutToBoundary text rawCut lo hi window ∧
      snapCutToBoundary text rawCut lo hi window ≤ hi := by
  rw [snapCutToBoundary]
  have hlo : (lo : Int) ≤ max (lo : Int) (min (hi : Int) rawCut) := le_max_left _ _
  have hhi : max (lo : Int) (min (hi : Int) rawCut) ≤ (hi : Int) :=
    max_le (by exact_mod_cast h) (min_le_left _ _)
  have hb1 : lo ≤ (max (lo : Int) (min (hi : Int) rawCut)).toNat := by omega
  have hb2 : (max (lo : Int) (min (hi : Int) rawCut)).toNat ≤ hi := by omega
  split
  · exact ⟨hb1, hb2⟩
  · split
    · exact ⟨hb1, hb2⟩
    · exact snapGo_bounds text lo hi _ hb1 hb2 1 window

theorem cutsGo_bounds (target : Str) (total textLen : Nat) :
    ∀ (ws : List Nat) (cum prev : Nat), prev ≤ textLen →
      (∀ e ∈ cutsGo target total textLen ws cum prev, e ≤ textLen) ∧
      List.Chain' (· ≤ ·) (prev :: cutsGo target total textLen ws cum prev) := by
  intro ws
  induction ws with
  | nil => intro cum prev h; simp [cutsGo]
  | cons w ws2 ih =>
    intro cum prev h
    rw [cutsGo]
    have hsb := snapCut_bounds target
      (roundHalfEven ((textLen : ℚ) * ((cum + w : Nat) : ℚ) / (total : ℚ)))
      prev textLen 24 h
    set snapped := snapCutToBoundary target
      (roundHalfEven ((textLen : ℚ) * ((cum + w : Nat) : ℚ) / (total : ℚ)))
      prev textLen 24 with hsnap
    have hs2a : prev ≤ (if snapped < prev then prev else snapped) := by
      split <;> omega
    have hs2b : (if snapped < prev then prev else snapped) ≤ textLen := by
      split <;> omega
    have ihx := ih (cum + w) (if snapped < prev then prev else snapped) hs2b
    constructor
    · intro e he
      rcases List.mem_cons.mp he with h1 | h1
      · omega
      · exact ihx.1 e h1
    · exact List.chain'_cons.mpr ⟨hs2a, ihx.2⟩

theorem cutsGo_length (target : Str) (total textLen : Nat) :
    ∀ (ws : List Nat) (cum prev : Nat),
      (cutsGo target total textLen ws cum prev).length = ws.length := by
  intro ws
  induction ws with
  | nil => intro cum prev; rfl
  | cons w ws2 ih => intro cum prev; rw [cutsGo]; simp [ih]

theorem sliceStr_append (s : Str) (a b c : Nat) (h1 : a ≤ b) (h2 : b ≤ c) :
    sliceStr s a b ++ sliceStr s b c = sliceStr s a c := by
  unfold sliceStr
  have hc : c - a = (b - a) + (c - b) := by omega
  rw [hc, List.take_add]
  congr 1
  rw [List.drop_drop]
  congr 2
  omega

theorem chain_le_getLastD : ∀ (es : List Nat) (e : Nat),
    List.Chain' (· ≤ ·) (e :: es) → e ≤ es.getLastD e := by
  intro es
  induction es with
  | nil => intro e h; simp
  | cons f fs ih =>
    intro e h
    have h1 := (List.chain'_cons.mp h).1
    have h2 := (List.chain'_cons.mp h).2
    calc e ≤ f := h1
      _ ≤ fs.getLastD f := ih f h2
      _ = (f :: fs).getLastD e := by rw [List.getLastD_cons]

theorem mkPieces_concat (target : Str) :
    ∀ (runs : List Run) (ends : List Nat) (cursor : Nat),
      runs.length = ends.length →
      List.Chain' (· ≤ ·) (cursor :: ends) →
      ((mkPieces target runs ends cursor).map Run.text).flatten =
        sliceStr target cursor (ends.getLastD cursor) := by
  intro runs
  induction runs with
  | nil =>
    intro ends cursor hlen hchain
    cases ends with
    | nil => simp [mkPieces, sliceStr]
    | cons e es => simp at hlen
  | cons r rs ih =>
    intro ends cursor hlen hchain
    cases ends with
    | nil => simp at hlen
    | cons e es =>
      rw [mkPieces]
      simp only [List.map_cons, List.flatten_cons]
      have hlen2 : rs.length = es.length := by simpa using hlen
      have hch1 := (List.chain'_cons.mp hchain).1
      have hch2 := (List.chain'_cons.mp hchain).2
      rw [ih es e hlen2 hch2]
      rw [List.getLastD_cons]
      exact sliceStr_append target cursor e (es.getLastD e) hch1
        (chain_le_getLastD es e hch2)

theorem chain_le_append_last : ∀ (xs : List Nat) (c L : Nat),
    List.Chain' (· ≤ ·) (c :: xs) → (∀ e ∈ xs, e ≤ L) → c ≤ L →
    List.Chain' (· ≤ ·) (c :: (xs ++ [L])) := by
  intro xs
  induction xs with
  | nil => intro c L h he hc; simpa using hc
  | cons x xs2 ih =>
    intro c L h he hc
    have h1 := (List.chain'_cons.mp h).1
    have h2 := (List.chain'_cons.mp h).2
    simp only [List.cons_append]
    exact List.chain'_cons.mpr
      ⟨h1, ih x L h2 (fun e hee => he e (by simp [hee])) (he x (by simp))⟩

/-- C9: for every non-empty target string and every style-run list,
`_project_style_runs_onto_text` partitions the target exactly: all segment
texts are non-empty, their concatenation is the target, and no two
adjacent segments share the same bold flag. -/
theorem c9_projection_partition (styleRuns : List Run) (target : Str)
    (hne : target ≠ []) :
    (∀ s ∈ projectStyleRunsOntoText styleRuns target, s.text ≠ []) ∧
    ((projectStyleRunsOntoText styleRuns target).map Run.text).flatten = target ∧
    List.Chain' (fun a b : Run => a.bold ≠ b.bold)
      (projectStyleRunsOntoText styleRuns target) := by
  have hE : target.isEmpty = false := by
    cases target with
    | nil => exact absurd rfl hne
    | cons c t => rfl
  unfold projectStyleRunsOntoText
  rw [hE]
  simp only [Bool.false_eq_true, if_false]
  match styleRuns with
  | [] =>
    refine ⟨?_, by simp, by simp⟩
    intro s hs
    simp at hs
    subst hs
    exact hne
  | [r] =>
    refine ⟨?_, by simp, by simp⟩
    intro s hs
    simp at hs
    subst hs
    exact hne
  | r1 :: r2 :: rest =>
    simp only []
    set weights := (r1 :: r2 :: rest).map (fun r => max 1 r.text.length) with hw
    set total := max 1 weights.sum with ht
    set cuts := cutsGo target total target.length weights.dropLast 0 0 with hcuts
    set ends := cuts ++ [target.length] with hends
    have hcb := cutsGo_bounds target total target.length weights.dropLast 0 0
      (Nat.zero_le _)
    have hchain : List.Chain' (· ≤ ·) (0 :: ends) :=
      chain_le_append_last cuts 0 target.length hcb.2 hcb.1 (Nat.zero_le _)
    have hlen : (r1 :: r2 :: rest).length = ends.length := by
      rw [hends, List.length_append]
      rw [hcuts, cutsGo_length]
      rw [hw]
      simp [List.length_dropLast]
    have hlast : ends.getLastD 0 = target.length := by
      rw [hends]
      exact List.getLastD_concat _ _ _
    have hconcat : ((mkPieces target (r1 :: r2 :: rest) ends 0).map Run.text).flatten
        = target := by
      rw [mkPieces_concat target (r1 :: r2 :: rest) ends 0 hlen hchain, hlast]
      simp [sliceStr]
    by_cases hproj : (mergeSegs (mkPieces target (r1 :: r2 :: rest) ends 0)).isEmpty
    · rw [if_pos hproj]
      refine ⟨?_, by simp, by simp⟩
      intro s hs
      simp at hs
      subst hs
      exact hne
    · rw [if_neg hproj]
      refine ⟨mergeSegs_nonempty _, ?_, mergeSegs_alt _⟩
      rw [mergeSegs_concat, hconcat]

/-- C9 witness: the partition property at a concrete projection. -/
theorem c9_projection_partition_witness :
    (("abc def gh".toList : Str) ≠ []) ∧
    ((∀ s ∈ projectStyleRunsOntoText
        [⟨"1. e4".toList, true⟩, ⟨" prose".toList, false⟩] "abc def gh".toList,
      s.text ≠ []) ∧
    ((projectStyleRunsOntoText
        [⟨"1. e4".toList, true⟩, ⟨" prose".toList, false⟩] "abc def gh".toList).map
      Run.text).flatten = "abc def gh".toList ∧
    List.Chain' (fun a b : Run => a.bold ≠ b.bold)
      (projectStyleRunsOntoText
        [⟨"1. e4".toList, true⟩, ⟨" prose".toList, false⟩] "abc def gh".toList)) :=
  ⟨by decide,
    c9_projection_partition [⟨"1. e4".toList, true⟩, ⟨" prose".toList, false⟩]
      "abc def gh".toList (by decide)⟩

/-! A small backtracking regular-expression engine. The Python sources use
`re`/`regex` patterns; each pattern is hand-compiled to an `RE` value below
and run by a fueled engine with Python semantics: ordered alternation,
greedy/lazy quantifiers with backtracking, captures, word boundaries,
single-character lookbehind, lookahead, and end-of-string `$`. -/

/-- Python `\w` restricted to ASCII plus Polish letters (the character
repertoire this code base processes). -/
def isPolishLower (c : Char) : Bool :=
  c == 'ą' || c == 'ć' || c == 'ę' || c == 'ł' || c == 'ń' || c == 'ó' ||
  c == 'ś' || c == 'ź' || c == 'ż'

def isPolishUpper (c : Char) : Bool :=
  c == 'Ą' || c == 'Ć' || c == 'Ę' || c == 'Ł' || c == 'Ń' || c == 'Ó' ||
  c == 'Ś' || c == 'Ź' || c == 'Ż'

/-- `\p{Ll}` (lowercase letter), ASCII + Polish. -/
def isLowerPL (c : Char) : Bool := c.isLower || isPolishLower c

/-- `\p{Lu}` (uppercase letter), ASCII + Polish. -/
def isUpperPL (c : Char) : Bool := c.isUpper || isPolishUpper c

/-- `\p{L}` (letter), ASCII + Polish. -/
def isLetterPL (c : Char) : Bool := isLowerPL c || isUpperPL c

/-- `\w`, ASCII + Polish. -/
def isWordChar (c : Char) : Bool := isLetterPL c || c.isDigit || c == '_'

/-- Regular-expression abstract syntax. `greedy = false` is a lazy
quantifier. `lb` is a single-character lookbehind predicate on the
previous character (`none` at the start of the string). -/
inductive RE where
  | fail
  | eps
  | chr (c : Char)
  | cls (p : Char → Bool)
  | cat (a b : RE)
  | alt (a b : RE)
  | opt (a : RE) (greedy : Bool)
  | star (a : RE) (greedy : Bool)
  | rep (a : RE) (lo hi : Nat) (greedy : Bool)
  | grp (n : Nat) (a : RE)
  | la (a : RE) (pos : Bool)
  | lb (p : Option Char → Bool)
  | wordB (pos : Bool)
  | eol

/-- Captures: most recent first. -/
abbrev Caps := List (Nat × Str)

/-- The continuation receives the previous character, the remaining input
and the captures; the overall result is the remaining input after the
match plus the captures. -/
abbrev MatchK := Option Char → Str → Caps → Option (Str × Caps)

/-- The backtracking matcher. Fuel only forces termination; callers pass
more fuel than any derivation can consume. -/
def matchRE : Nat → RE → Option Char → Str → Caps → MatchK → Option (Str × Caps)
  | 0, _, _, _, _, _ => none
  | _ + 1, RE.fail, _, _, _, _ => none
  | _ + 1, RE.eps, prev, s, caps, k => k prev s caps
  | _ + 1, RE.chr c, _, s, caps, k =>
    match s with
    | [] => none
    | d :: t => if d == c then k (some d) t caps else none
  | _ + 1, RE.cls p, _, s, caps, k =>
    match s with
    | [] => none
    | d :: t => if p d then k (some d) t caps else none
  | fuel + 1, RE.cat a b, prev, s, caps, k =>
    matchRE fuel a prev s caps (fun p2 s2 c2 => matchRE fuel b p2 s2 c2 k)
  | fuel + 1, RE.alt a b, prev, s, caps, k =>
    match matchRE fuel a prev s caps k with
    | some r => some r
    | none => matchRE fuel b prev s caps k
  | fuel + 1, RE.opt a g, prev, s, caps, k =>
    if g then
      match matchRE fuel a prev s caps k with
      | some r => some r
      | none => k prev s caps
    else
      match k prev s caps with
      | some r => some r
      | none => matchRE fuel a prev s caps k
  | fuel + 1, RE.star a g, prev, s, caps, k =>
    if g then
      match matchRE fuel a prev s caps (fun p2 s2 c2 =>
        if s2.length < s.length then matchRE fuel (RE.star a g) p2 s2 c2 k
        else k p2 s2 c2) with
      | some r => some r
      | none => k prev s caps
    else
      match k prev s caps with
      | some r => some r
      | none => matchRE fuel a prev s caps (fun p2 s2 c2 =>
          if s2.length < s.length then matchRE fuel (RE.star a g) p2 s2 c2 k
          else k p2 s2 c2)
  | fuel + 1, RE.rep a lo hi g, prev, s, caps, k =>
    if h : 0 < lo then
      matchRE fuel a prev s caps (fun p2 s2 c2 =>
        matchRE fuel (RE.rep a (lo - 1) (hi - 1) g) p2 s2 c2 k)
    else if hi = 0 then k prev s caps
    else if g then
      match matchRE fuel a prev s caps (fun p2 s2 c2 =>
        if s2.length < s.length then matchRE fuel (RE.rep a 0 (hi - 1) g) p2 s2 c2 k
        else k p2 s2 c2) with
      | some r => some r
      | none => k prev s caps
    else
      match k prev s caps with
      | some r => some r
      | none => matchRE fuel a prev s caps (fun p2 s2 c2 =>
          if s2.length < s.length then matchRE fuel (RE.rep a 0 (hi - 1) g) p2 s2 c2 k
          else k p2 s2 c2)
  | fuel + 1, RE.grp n a, prev, s, caps, k =>
    matchRE fuel a prev s caps (fun p2 s2 c2 =>
      k p2 s2 ((n, s.take (s.length - s2.length)) :: c2))
  | fuel + 1, RE.la a pos, prev, s, caps, k =>
    match matchRE fuel a prev s caps (fun _ s2 c2 => some (s2, c2)) with
    | some _ => if pos then k prev s caps else none
    | none => if pos then none else k prev s caps
  | _ + 1, RE.lb p, prev, s, caps, k =>
    if p prev then k prev s caps else none
  | _ + 1, RE.wordB pos, prev, s, caps, k =>
    let before := match prev with
      | some c => isWordChar c
      | none => false
    let after := match s with
      | c :: _ => isWordChar c
      | [] => false
    if (before != after) == pos then k prev s caps else none
  | _ + 1, RE.eol, prev, s, caps, k =>
    match s with
    | [] => k prev s caps
    | ['\n'] => k prev s caps
    | _ => none

/-- Fuel that bounds the depth of any derivation on input `s`. -/
def reFuel (s : Str) : Nat := (s.length + 2) * 200 + 200

/-- Match anchored at the current position: `some (consumed, captures)`. -/
def reMatchAt (r : RE) (prev : Option Char) (s : Str) : Option (Nat × Caps) :=
  match matchRE (reFuel s) r prev s [] (fun _ s2 c2 => some (s2, c2)) with
  | some (rest, caps) => some (s.length - rest.length, caps)
  | none => none

/-- Python `m.group(i)` (last binding wins, unset gives the empty string —
never hit by these patterns when the match succeeded). -/
def capsGet (caps : Caps) (n : Nat) : Str :=
  match caps.find? (fun p => p.1 == n) with
  | some p => p.2
  | none => []

/-- Python `re.sub` with a replacement function of the whole match and the
captures, scanning left to right with the standard empty-match rule. -/
def reSubGo (r : RE) (repl : Str → (Nat → Str) → Str) :
    Nat → Option Char → Str → Str
  | 0, _, s => s
  | fuel + 1, prev, s =>
    match reMatchAt r prev s with
    | some (n, caps) =>
      if n = 0 then
        match s with
        | [] => repl [] (capsGet caps)
        | c :: t => repl [] (capsGet caps) ++ c :: reSubGo r repl fuel (some c) t
      else
        repl (s.take n) (capsGet caps) ++
          reSubGo r repl fuel ((s.take n).getLast?) (s.drop n)
    | none =>
      match s with
      | [] => []
      | c :: t => c :: reSubGo r repl fuel (some c) t

def reSubF (r : RE) (repl : Str → (Nat → Str) → Str) (s : Str) : Str :=
  reSubGo r repl (s.length + 1) none s

/-- Python `re.sub` with a template using only group references and
literal text. -/
def reSub (r : RE) (repl : (Nat → Str) → Str) (s : Str) : Str :=
  reSubF r (fun _ g => repl g) s

/-- Python `re.finditer`: non-overlapping matches, `(start, stop, caps)`. -/
def reFindGo (r : RE) : Nat → Nat → Option Char → Str → List (Nat × Nat × Caps)
  | 0, _, _, _ => []
  | fuel + 1, pos, prev, s =>
    match reMatchAt r prev s with
    | some (n, caps) =>
      if n = 0 then
        (pos, pos, caps) ::
          (match s with
            | [] => []
            | c :: t => reFindGo r fuel (pos + 1) (some c) t)
      else
        (pos, pos + n, caps) ::
          reFindGo r fuel (pos + n) ((s.take n).getLast?) (s.drop n)
    | none =>
      match s with
      | [] => []
      | c :: t => reFindGo r fuel (pos + 1) (some c) t

def reFindIter (r : RE) (s : Str) : List (Nat × Nat × Caps) :=
  reFindGo r (s.length + 1) 0 none s

/-- Python `re.search`: the first match. -/
def reSearch (r : RE) (s : Str) : Option (Nat × Nat × Caps) :=
  (reFindIter r s).head?

/-- Python `re.match(...)` as a Boolean (anchored at the start). -/
def reHasMatchStart (r : RE) (s : Str) : Bool :=
  (reMatchAt r none s).isSome

/-- Python `re.fullmatch` as a Boolean. -/
def reFullmatch (r : RE) (s : Str) : Bool :=
  (matchRE (reFuel s) r none s []
    (fun _ s2 c2 => if s2.isEmpty then some (s2, c2) else none)).isSome

/-- Sequence a list of regexes. -/
def reSeq (l : List RE) : RE := l.foldr RE.cat RE.eps

/-- Literal string. -/
def reStr (cs : Str) : RE := reSeq (cs.map RE.chr)

/-- Case-insensitive literal string (ASCII case folding). -/
def reStrCI (cs : Str) : RE :=
  reSeq (cs.map (fun c => RE.cls (fun d => d.toLower == c.toLower)))

/-- Character class from an explicit character list. -/
def reAnyOf (cs : Str) : RE := RE.cls (fun c => cs.contains c)

/-- Case-insensitive character class from an explicit character list. -/
def reAnyOfCI (cs : Str) : RE :=
  RE.cls (fun c => cs.contains c.toLower || cs.contains c.toUpper)

/-- Ordered alternation of a non-empty list. -/
def reAlts (l : List RE) : RE := l.foldr RE.alt RE.fail

/-- `a+` (greedy). -/
def rePlus (a : RE) : RE := RE.cat a (RE.star a true)

/-- `a{n,}` (greedy). -/
def reAtLeast (a : RE) (n : Nat) : RE :=
  reSeq (List.replicate n a ++ [RE.star a true])

/-- `\s` -/
def reWs : RE := RE.cls pyIsSpace

/-- `\s*` (greedy). -/
def reWsStar : RE := RE.star reWs true

/-- `\d` -/
def reDigit : RE := RE.cls Char.isDigit

/-- `\d{1,3}` (greedy). -/
def reD13 : RE := RE.rep reDigit 1 3 true

/-! `chess_pdf/san.py`: the notation-repair pipeline. Each Python regex is
compiled to an `RE` value kept next to the transform that uses it. -/

/-- `\s*\n\s*` (inside `_fix_misplaced_bold_markers`). -/
def wsNlWsRE : RE := reSeq [reWsStar, RE.chr '\n', reWsStar]

/-- `\b(?![KQRBNO]\b)(?![A-Z]x)\p{Lu}[\p{Ll}]{2,}\b`
(the capitalized-prose-word pattern of `_fix_misplaced_bold_markers`). -/
def polishWordRE : RE :=
  reSeq [RE.wordB true,
    RE.la (reSeq [reAnyOf "KQRBNO".toList, RE.wordB true]) false,
    RE.la (reSeq [RE.cls Char.isUpper, RE.chr 'x']) false,
    RE.cls isUpperPL,
    reAtLeast (RE.cls isLowerPL) 2,
    RE.wordB true]

/-- Walk the non-overlapping `\[\[B\]\](.*?)\[\[/B\]\]` matches (lazy, as
in the sources), replacing each whole match by `f content`. -/
def mapBoldPairs (f : Str → Str) : Nat → Str → Str
  | 0, s => s
  | fuel + 1, s =>
    match firstOccur bS s with
    | none => s
    | some i =>
      match firstOccur bE ((s.drop i).drop bS.length) with
      | none => s
      | some j =>
        s.take i ++ f (((s.drop i).drop bS.length).take j) ++
          mapBoldPairs f fuel (((s.drop i).drop bS.length).drop (j + bE.length))

def mapBoldPairsF (f : Str → Str) (s : Str) : Str :=
  mapBoldPairs f (s.length + 1) s

/-- The per-match body of `_fix_misplaced_bold_markers`. -/
def fixMarker (content : Str) : Str :=
  let c1 := reSub wsNlWsRE (fun _ => [' ']) content
  let c2 := stripWs c1
  match reSearch polishWordRE c2 with
  | some (start, _, _) =>
    bS ++ rstripWs (c2.take start) ++ bE ++ ' ' :: (c2.drop start)
  | none => bS ++ c2 ++ bE

/-- `_fix_misplaced_bold_markers` (`chess_pdf/san.py`). -/
def fixMisplacedBoldMarkers (s : Str) : Str := mapBoldPairsF fixMarker s

/-- `(?<!\.)\b(\d{1,3})(?=\s*(?:[KQRBNO]|[a-h]|[iI]|J|["]!|!["]))`. -/
def insertDotRE : RE :=
  reSeq [RE.lb (fun o => match o with | some c => !(c == '.') | none => true),
    RE.wordB true, RE.grp 1 reD13,
    RE.la (reSeq [reWsStar,
      reAlts [reAnyOf "KQRBNO".toList, reAnyOf "abcdefgh".toList,
        reAnyOf "iI".toList, RE.chr 'J',
        reStr ['"', '!'], reStr ['!', '"']]]) true]

/-- `_insert_missing_dot_after_move_number` (`chess_pdf/san.py`). -/
def insertMissingDotAfterMoveNumber (s : Str) : Str :=
  reSub insertDotRE (fun g => g 1 ++ ['.']) s

/-- `\b(?P<num>[Il|\d][Il|\s\d]{0,4})\s*(?P<dots>(?:\.\s*){1,6})`. -/
def moveNumbersRE : RE :=
  reSeq [RE.wordB true,
    RE.grp 1 (reSeq [RE.cls (fun c => c == 'I' || c == 'l' || c == '|' || c.isDigit),
      RE.rep (RE.cls (fun c => c == 'I' || c == 'l' || c == '|' ||
        pyIsSpace c || c.isDigit)) 0 4 true]),
    reWsStar,
    RE.grp 2 (RE.rep (reSeq [RE.chr '.', reWsStar]) 1 6 true)]

/-- `_normalize_move_numbers` (`chess_pdf/san.py`). -/
def normalizeMoveNumbers (s : Str) : Str :=
  reSub moveNumbersRE (fun g =>
    let digits := ((g 1).map (fun c =>
      if c == 'l' || c == 'I' || c == '|' then '1' else c)).filter
      (fun c => !pyIsSpace c)
    let ndots := ((g 2).filter (fun c => c == '.')).length
    digits ++ (if 2 ≤ ndots then ['.', '.', '.'] else ['.'])) s

/-- `_normalize_move_dots` (`chess_pdf/san.py`). -/
def normalizeMoveDots (s : Str) : Str :=
  let s1 := reSub (reSeq [RE.wordB true, RE.grp 1 reD13, reWsStar,
    reAtLeast (reSeq [RE.chr '.', reWsStar]) 2])
    (fun g => g 1 ++ ['.', '.', '.']) s
  reSub (reSeq [RE.wordB true, RE.grp 1 reD13, reWsStar, RE.chr '.',
    RE.la (RE.chr '.') false]) (fun g => g 1 ++ ['.']) s1

/-- The `_FIGURINE_MAP` table (`chess_pdf/san.py`). -/
def figMap (c : Char) : Option Str :=
  if c == Char.ofNat 0x2654 then some ['K']
  else if c == Char.ofNat 0x2655 then some ['Q']
  else if c == Char.ofNat 0x2656 then some ['R']
  else if c == Char.ofNat 0x2657 then some ['B']
  else if c == Char.ofNat 0x2658 then some ['N']
  else if c == Char.ofNat 0x2659 then some []
  else if c == Char.ofNat 0x265A then some ['K']
  else if c == Char.ofNat 0x265B then some ['Q']
  else if c == Char.ofNat 0x265C then some ['R']
  else if c == Char.ofNat 0x265D then some ['B']
  else if c == Char.ofNat 0x265E then some ['N']
  else if c == Char.ofNat 0x265F then some []
  else if c == Char.ofNat 0x2020 then some ['+']
  else if c == Char.ofNat 0x2021 then some ['+']
  else if c == Char.ofNat 0x271D then some ['+']
  else if c == Char.ofNat 0x271E then some ['+']
  else none

/-- `_normalize_piece_glyphs_in_context` (`chess_pdf/san.py`). -/
def normalizePieceGlyphs (s : Str) : Str :=
  if s.isEmpty then s
  else
    let s1 := s.foldr (fun c acc =>
      match figMap c with
      | some r => r ++ acc
      | none => c :: acc) []
    let s2 := reSub (reSeq [RE.chr '+', reWsStar, RE.chr '/', reWsStar, RE.chr '-'])
      (fun _ => ['+', '/', '-']) s1
    reSub (reSeq [RE.chr '-', reWsStar, RE.chr '/', reWsStar, RE.chr '+'])
      (fun _ => ['-', '/', '+']) s2

/-- `_fix_spaced_punctuation` (`chess_pdf/san.py`). -/
def fixSpacedPunctuation (s : Str) : Str :=
  let s1 := reSub (reSeq [RE.chr '!', reWsStar, RE.chr '!']) (fun _ => ['!', '!']) s
  let s2 := reSub (reSeq [RE.chr '?', reWsStar, RE.chr '?']) (fun _ => ['?', '?']) s1
  let s3 := reSub (reSeq [RE.chr '!', reWsStar, RE.chr '?']) (fun _ => ['!', '?']) s2
  let s4 := reSub (reSeq [RE.chr '?', reWsStar, RE.chr '!']) (fun _ => ['?', '!']) s3
  let s5 := reSub (reSeq [rePlus reWs, RE.grp 1 (reAnyOf "!?.,;:".toList)])
    (fun g => g 1) s4
  let s6 := reSub (reSeq [RE.grp 1 (reAnyOf "([".toList), rePlus (RE.chr ' ')])
    (fun g => g 1) s5
  reSub (reSeq [rePlus (RE.chr ' '), RE.grp 1 (reAnyOf ")]".toList)])
    (fun g => g 1) s6

/-- The SAN-shaped token of `_strip_garbage_suffixes_after_square`. -/
def garbageTokenRE : RE :=
  reSeq [RE.opt (reAnyOf "KQRBN".toList) true,
    RE.opt (reAnyOf "abcdefgh".toList) true,
    RE.opt (RE.chr 'x') true,
    reAnyOf "abcdefgh".toList, reAnyOf "12345678".toList,
    RE.opt (reSeq [RE.chr '=', reAnyOf "QRBN".toList]) true,
    RE.opt (reAnyOf "+#".toList) true,
    RE.opt (RE.rep (reAnyOf "!?".toList) 1 2 true) true]

/-- `_strip_garbage_suffixes_after_square` (`chess_pdf/san.py`). -/
def stripGarbageSuffixes (s : Str) : Str :=
  reSub (reSeq [RE.grp 1 (reSeq [RE.wordB true, garbageTokenRE]),
    RE.grp 2 (RE.rep (RE.cls (fun c => c.isLower)) 1 3 true), RE.wordB true])
    (fun g => g 1) s

/-- `_fix_remaining_ocr_artifacts` (`chess_pdf/san.py`): the catalog of
narrow textual artifact fixes, in source order. -/
def fixRemainingOcrArtifacts (s : Str) : Str :=
  let t1 := reSub (reSeq [RE.wordB true, RE.grp 1 reDigit, RE.chr 'l',
    RE.grp 2 (RE.rep (RE.chr '.') 1 3 true)]) (fun g => g 1 ++ g 1 ++ g 2) s
  let t2 := reSub (reSeq [RE.grp 1 (rePlus reDigit), reWsStar, RE.chr '.',
    reWsStar, RE.chr '.',
    RE.la (reSeq [RE.opt (reAnyOf "KQRBN".toList) true,
      reAnyOf "abcdefgh".toList, reAnyOf "12345678".toList]) true])
    (fun g => g 1 ++ ['.']) t1
  let t3 := reSub (reSeq [RE.grp 1 (rePlus reDigit),
    reAtLeast (RE.chr '.') 4,
    RE.la (reSeq [RE.opt (reAnyOf "KQRBN".toList) true,
      reAnyOf "abcdefgh".toList, reAnyOf "12345678".toList]) true])
    (fun g => g 1 ++ ['.', '.', '.']) t2
  let t4 := replaceAll "0-0-0".toList "O-O-O".toList t3
  let t5 := replaceAll "0-0".toList "O-O".toList t4
  let t6 := replaceAll "O-0-0".toList "O-O-O".toList t5
  let t7 := replaceAll "O-0".toList "O-O".toList t6
  let t8 := replaceAll "0-O".toList "O-O".toList t7
  let t9 := reSub (reSeq [RE.wordB true, RE.grp 1 (reAnyOf "abcdefgh".toList),
    rePlus reWs, RE.grp 2 (reAnyOf "12345678".toList), RE.wordB true])
    (fun g => g 1 ++ g 2) t8
  let t10 := reSub (reSeq [RE.wordB true, RE.grp 1 (reAnyOf "KQRBN".toList),
    rePlus reWs, RE.grp 2 (reSeq [reAnyOf "abcdefgh".toList,
      reAnyOf "12345678".toList])]) (fun g => g 1 ++ g 2) t9
  let t11 := reSub (reSeq [RE.grp 1 (reAlts [reAnyOf "KQRBN".toList,
      reSeq [reAnyOf "abcdefgh".toList, reAnyOf "12345678".toList],
      reAnyOf "abcdefgh".toList]),
    rePlus reWs, RE.chr 'x', reWsStar]) (fun g => g 1 ++ ['x']) t10
  let t12 := reSub (reSeq [RE.chr 'x', rePlus reWs,
    RE.grp 1 (reSeq [reAnyOf "abcdefgh".toList, reAnyOf "12345678".toList])])
    (fun g => 'x' :: g 1) t11
  let t13 := reSub (reSeq [RE.grp 1 (reSeq [rePlus reDigit, RE.chr '.']),
    rePlus reWs, RE.grp 2 (reAnyOf "abcdefghKQRBN".toList)])
    (fun g => g 1 ++ g 2) t12
  let t14 := reSub (reSeq [RE.wordB true, reAnyOf "Hh".toList,
    reStrCI "etman".toList, reWsStar,
    RE.grp 1 (reAnyOf "xabcdefgh".toList)]) (fun g => 'Q' :: g 1) t13
  let t15 := reSub (reSeq [RE.wordB true, reAnyOf "Gg".toList,
    reStrCI "oniec".toList, reWsStar,
    RE.grp 1 (reAnyOf "xabcdefgh".toList)]) (fun g => 'B' :: g 1) t14
  let t16 := reSub (reSeq [RE.wordB true, reAnyOf "Ss".toList,
    reStrCI "koczek".toList, reWsStar,
    RE.grp 1 (reAnyOf "xabcdefgh".toList)]) (fun g => 'N' :: g 1) t15
  let t17 := reSub (reSeq [RE.wordB true, reAnyOf "Ww".toList,
    reStrCI "ie".toList, reStrCI "za".toList, reWsStar,
    RE.grp 1 (reAnyOf "xabcdefgh".toList)]) (fun g => 'R' :: g 1) t16
  let t18 := reSub (reSeq [RE.wordB true, reAnyOf "Kk".toList,
    reStrCI "r".toList, reStrCI "ol".toList, reWsStar,
    RE.grp 1 (reAnyOf "xabcdefgh".toList)]) (fun g => 'K' :: g 1) t17
  let t19 := reSub (reSeq [RE.wordB true, reAnyOf "Ww".toList,
    reStrCI "ie".toList, reAnyOfCI "z".toList, reStrCI "a".toList, reWsStar,
    RE.grp 1 (reAnyOf "xabcdefgh".toList)]) (fun g => 'R' :: g 1) t18
  let t20 := reSub (reSeq [RE.wordB true, reAnyOf "Kk".toList,
    reStrCI "r".toList, reAnyOfCI "o".toList, reStrCI "l".toList, reWsStar,
    RE.grp 1 (reAnyOf "xabcdefgh".toList)]) (fun g => 'K' :: g 1) t19
  let t21 := reSub (reSeq [RE.wordB true, reStr "one".toList, reWsStar,
    RE.grp 1 (reAnyOf "12345678".toList), RE.wordB true])
    (fun g => "on e".toList ++ g 1) t20
  let t22 := reSub (reSeq [RE.wordB true, reStr "ind".toList, reWsStar,
    RE.grp 1 (reAnyOf "12345678".toList), RE.wordB true])
    (fun g => "on d".toList ++ g 1) t21
  let t23 := reSub (reSeq [RE.wordB true, reStr "inc".toList, reWsStar,
    RE.grp 1 (reAnyOf "12345678".toList), RE.wordB true])
    (fun g => "on c".toList ++ g 1) t22
  let t24 := reSub (reSeq [RE.wordB true, reStr "inf".toList, reWsStar,
    RE.grp 1 (reAnyOf "12345678".toList), RE.wordB true])
    (fun g => "on f".toList ++ g 1) t23
  let t25 := reSub (reSeq [RE.wordB true, reStr "ing".toList, reWsStar,
    RE.grp 1 (reAnyOf "12345678".toList), RE.wordB true])
    (fun g => "on g".toList ++ g 1) t24
  let t26 := reSub (reSeq [RE.grp 1 (reSeq [rePlus reDigit,
      reAtLeast (RE.chr '.') 2]),
    rePlus reWs,
    RE.grp 2 (reSeq [reAnyOf "KQRBN".toList,
      RE.opt (reAnyOf "abcdefgh".toList) true,
      RE.opt (reAnyOf "12345678".toList) true,
      RE.opt (RE.chr 'x') true,
      reAnyOf "abcdefgh".toList, reAnyOf "12345678".toList])])
    (fun g => g 1 ++ g 2) t25
  reSub (reSeq [RE.grp 1 (reSeq [RE.opt (reAnyOf "KQRBN".toList) true,
      RE.opt (reAnyOf "abcdefgh".toList) true,
      RE.opt (reAnyOf "12345678".toList) true,
      RE.opt (RE.chr 'x') true,
      reAnyOf "abcdefgh".toList, reAnyOf "12345678".toList,
      RE.opt (reSeq [RE.chr '=', reAnyOf "QRBN".toList]) true,
      RE.opt (reAnyOf "+#".toList) true,
      RE.rep (reAnyOf "!?".toList) 0 2 true]),
    reAlts [reStr "ao".toList, RE.chr '±'], RE.wordB true])
    (fun g => g 1) t26

/-- `_SAN_INLINE_RE` (`chess_pdf/san.py`). -/
def sanInlineRE : RE :=
  reSeq [RE.opt (reAnyOf "KQRBN".toList) true,
    reAlts [reSeq [reAnyOf "abcdefgh".toList, reAnyOf "12345678".toList],
      reSeq [reAnyOf "abcdefgh".toList, RE.chr 'x',
        reAnyOf "abcdefgh".toList, reAnyOf "12345678".toList],
      reSeq [reAnyOf "abcdefgh".toList, RE.opt (RE.chr 'x') true,
        reAnyOf "abcdefgh".toList, reAnyOf "12345678".toList]],
    RE.opt (reSeq [RE.chr '=', reAnyOf "QRBN".toList]) true,
    RE.opt (reAnyOf "+#".toList) true,
    RE.rep (reAnyOf "!?".toList) 0 2 true]

/-- `_fix_prose_chess_artifacts` (`chess_pdf/san.py`). -/
def fixProseChessArtifacts (s : Str) : Str :=
  if s.isEmpty then s
  else
    let p1 := reSub (reSeq [RE.wordB true, reStrCI "mog".toList,
      reAnyOf "ęeĘE".toList, rePlus reWs, reStrCI "wygra".toList,
      reAnyOf "cćCĆ".toList, rePlus reWs, reStrCI "z".toList, rePlus reWs,
      RE.grp 1 (reSeq [rePlus reDigit, reStr "...".toList,
        rePlus (RE.cls (fun c => c.isAlpha || c.isDigit ||
          "-+=#/".toList.contains c))])])
      (fun g => "mogę wygrać po ".toList ++ g 1) s
    let p2 := reSub (reSeq [RE.wordB true, reStrCI "z ruchu tekstowego".toList,
      RE.wordB true]) (fun _ => "z ruchu z partii".toList) p1
    let p3 := reSub (reSeq [reStr "...".toList, rePlus reWs,
      RE.la (reSeq [sanInlineRE, RE.wordB true]) true]) (fun _ => [' ']) p2
    let p4 := reSub (reSeq [RE.wordB true,
      RE.grp 1 (reSeq [reStrCI "zar".toList, reAnyOf "oóOÓ".toList,
        reStrCI "wno".toList]),
      rePlus reWs, RE.grp 2 sanInlineRE, rePlus reWs,
      RE.grp 3 (reStrCI "jak i".toList), rePlus reWs,
      RE.grp 4 sanInlineRE, RE.wordB true])
      (fun g => g 1 ++ [' '] ++ g 2 ++ [',', ' '] ++ g 3 ++ [' '] ++ g 4) p3
    reSub (reSeq [RE.lb (fun o => match o with
        | some c => !pyIsSpace c
        | none => false),
      rePlus reWs,
      RE.grp 1 (reAlts [reStr "-+".toList, reStr "+/-".toList,
        reStr "-/+".toList])]) (fun g => g 1) p4

/-- `_normalize_soft_prose_linebreaks` (`chess_pdf/san.py`). -/
def normalizeSoftProseLinebreaks (s : Str) : Str :=
  if s.isEmpty || !s.contains '\n' then s
  else
    let marker := Char.ofNat 0xE000
    let u1 := replaceAll ['\r'] [] s
    let u2 := replaceAll ['\n', '\n'] [marker] u1
    let u3 := reSub (reSeq [RE.grp 1 (reAnyOf ",;:".toList), RE.chr '\n',
      RE.la (RE.cls isLowerPL) true]) (fun g => g 1 ++ [' ']) u2
    let u4 := reSub (reSeq [RE.grp 1 (reSeq [RE.wordB true,
        RE.rep (RE.cls isLetterPL) 1 14 true]), RE.chr '\n',
      RE.la (RE.cls isLowerPL) true]) (fun g => g 1 ++ [' ']) u3
    let u5 := reSub (reSeq [RE.lb (fun o => match o with
        | some c => isLowerPL c
        | none => false), RE.chr '\n',
      RE.la (RE.cls isLowerPL) true]) (fun _ => [' ']) u4
    let u6 := reSub (reSeq [RE.lb (fun o => match o with
        | some c => !pyIsSpace c
        | none => false), RE.chr '\n',
      RE.la (reSeq [reD13, RE.chr '.']) true]) (fun _ => [' ']) u5
    let u7 := replaceAll [marker] ['\n', '\n'] u6
    reSub (reAtLeast (RE.chr ' ') 2) (fun _ => [' ']) u7

/-- The `move_token` of `_newline_after_bold_move` (`chess_pdf/san.py`). -/
def newlineMoveTokenRE : RE :=
  reSeq [reAlts [reSeq [reD13, reWsStar, reStr "...".toList],
      reSeq [RE.opt (RE.chr '\\') true, reD13, reWsStar, RE.chr '.']],
    reWsStar,
    RE.star (RE.cls (fun c => c.isAlpha || c.isDigit ||
      "O-=+#".toList.contains c)) true,
    RE.opt (reAnyOf "abcdefgh".toList) true,
    RE.opt (reAnyOf "12345678".toList) true,
    RE.opt (reAnyOf "=QNRB".toList) true,
    RE.opt (reAnyOf "+#".toList) true,
    RE.star (reAnyOf "!?".toList) true]

/-- `_newline_after_bold_move` (`chess_pdf/san.py`). -/
def newlineAfterBoldMove (s : Str) : Str :=
  reSub (reSeq [RE.grp 1 (reSeq [reStr bS, reWsStar, newlineMoveTokenRE,
    reWsStar, reStr bE]), reWsStar]) (fun g => g 1 ++ ['\n']) s

/-- `_repair_san_tokens_in_text` (`chess_pdf/san.py`): the identity. -/
def repairSanTokensInText (s : Str) : Str := s

/-- `postprocess_translated_marked` (`chess_pdf/san.py`): the full ordered
notation-repair pipeline. -/
def postprocess_translated_marked (marked : Str) : Str :=
  if marked.isEmpty then marked
  else
    let s1 := fixMisplacedBoldMarkers marked
    let s2 := insertMissingDotAfterMoveNumber s1
    let s3 := normalizeMoveNumbers s2
    let s4 := normalizeMoveDots s3
    let s5 := normalizeCastlingAndTimes s4
    let s6 := normalizePieceGlyphs s5
    let s7 := repairSanTokensInText s6
    let s8 := fixSpacedPunctuation s7
    let s9 := stripGarbageSuffixes s8
    let s10 := fixRemainingOcrArtifacts s9
    let s11 := fixProseChessArtifacts s10
    let s12 := normalizeSoftProseLinebreaks s11
    let s13 := newlineAfterBoldMove s12
    let s14 := reSub (reSeq [RE.grp 1 (reSeq [RE.wordB true, reD13]),
      reWsStar, RE.chr ',', reWsStar]) (fun g => g 1 ++ ['.', ' ']) s13
    reSub (reAtLeast (RE.chr '\n') 3) (fun _ => ['\n', '\n']) s14

/-! `chess_pdf/translation_core.py`: token classification, bold-marker
reconciliation, and the block translation driver. -/

/-- `^\s*\d{1,3}\s*(?:\.\.\.|\.)` (`_MOVE_START_RE`), used anchored. -/
def moveStartRE : RE :=
  reSeq [reWsStar, reD13, reWsStar, reAlts [reStr "...".toList, RE.chr '.']]

/-- `^\d{1,3}\.{1,3}` (`_MOVE_PREFIX_RE`), used anchored. -/
def movePfxRE : RE := reSeq [reD13, RE.rep (RE.chr '.') 1 3 true]

/-- `^(?:1-0|0-1|1/2-1/2|\*)$` (`_RESULT_TOKEN_RE`), used with fullmatch. -/
def resultTokenRE : RE :=
  reAlts [reStr "1-0".toList, reStr "0-1".toList, reStr "1/2-1/2".toList,
    RE.chr '*']

/-- `^(?:\+/-|-/\+|±|∓|\+=|=\+|=|∞)$` (`_EVAL_TOKEN_RE`), with fullmatch. -/
def evalTokenRE : RE :=
  reAlts [reStr "+/-".toList, reStr "-/+".toList, RE.chr '±', RE.chr '∓',
    reStr "+=".toList, reStr "=+".toList, RE.chr '=', RE.chr '∞']

/-- `_SAN_SUFFIX` (case-insensitive context). -/
def sanSuffixRE : RE :=
  reSeq [RE.opt (reSeq [RE.chr '=', reAnyOfCI "qrbn".toList]) true,
    RE.opt (RE.cls (fun c => c == '+' || c == '#' || c.toLower == 't')) true,
    RE.opt (RE.rep (reAnyOf "!?".toList) 1 2 true) true,
    RE.opt (reAnyOfCI "n".toList) true]

/-- `_SAN_TOKEN_RE` of `translation_core.py` (IGNORECASE, fullmatch). -/
def sanTokenRE : RE :=
  reAlts [
    reSeq [reAlts [
        reSeq [reAnyOfCI "o".toList, RE.opt (RE.chr '-') true,
          reAnyOfCI "o".toList,
          RE.opt (reSeq [RE.opt (RE.chr '-') true, reAnyOfCI "o".toList]) true],
        reSeq [RE.chr '0', RE.chr '-', RE.chr '0',
          RE.opt (reSeq [RE.chr '-', RE.chr '0']) true]],
      sanSuffixRE],
    reSeq [reAnyOfCI "kqrbn".toList,
      RE.rep (RE.cls (fun c =>
        "abcdefgh12345678".toList.contains c.toLower)) 0 2 true,
      RE.opt (reAnyOfCI "x".toList) true,
      reAnyOfCI "abcdefgh".toList, reAnyOf "12345678".toList, sanSuffixRE],
    reSeq [reAnyOfCI "abcdefgh".toList, reAnyOfCI "x".toList,
      reAnyOfCI "abcdefgh".toList, reAnyOf "12345678".toList, sanSuffixRE],
    reSeq [reAnyOfCI "abcdefgh".toList, reAnyOf "12345678".toList, sanSuffixRE]]

/-- Python `str.strip(chars)`: strip the given characters from both ends. -/
def stripChars (cs : Str) (s : Str) : Str :=
  ((s.dropWhile (fun c => cs.contains c)).reverse.dropWhile
    (fun c => cs.contains c)).reverse

/-- Python `str.endswith`. -/
def endsW (suf s : Str) : Bool := startsW suf.reverse s.reverse

/-- `_strip_token_wrappers` (`chess_pdf/translation_core.py`). -/
def stripTokenWrappers (token : Str) : Str :=
  if token.isEmpty then []
  else stripChars ",;:".toList (stripChars "()[]{}".toList (stripWs token))

/-- `_is_chess_notation_token` (`chess_pdf/translation_core.py`). -/
def isChessNotatToken (token : Str) : Bool :=
  let t := stripTokenWrappers token
  if t.isEmpty then false
  else if t == ['N'] then true
  else if t == ['+'] || t == ['#'] || t == ['t'] then true
  else if reFullmatch (RE.rep (RE.chr '.') 1 3 true) t then true
  else if reFullmatch (rePlus (RE.cls (fun c =>
    c == '-' || c == Char.ofNat 0x2013 || c == Char.ofNat 0x2014))) t then true
  else if reFullmatch (rePlus (reAnyOf "!?".toList)) t then true
  else if reFullmatch resultTokenRE t then true
  else if reFullmatch evalTokenRE t then true
  else if reFullmatch reD13 t then true
  else if reFullmatch (reSeq [reD13, RE.rep (RE.chr '.') 1 3 true]) t then true
  else
    let t2 := match reMatchAt movePfxRE none t with
      | some (n, _) =>
        if (t.drop n).isEmpty then none
        else some ((t.drop n).dropWhile (fun c => c == '.'))
      | none => some t
    match t2 with
    | none => true
    | some t3 =>
      if (endsW "+/-".toList t3 && decide (3 < t3.length) &&
            reFullmatch sanTokenRE (t3.take (t3.length - 3))) ||
         (endsW "-/+".toList t3 && decide (3 < t3.length) &&
            reFullmatch sanTokenRE (t3.take (t3.length - 3))) then true
      else reFullmatch sanTokenRE t3

/-- The `\S+` tokenizer with positions (`re.finditer` in
`_find_notation_prefix_end`); fuel as in `countOccurGo`. -/
def tokensPosGo : Nat → Nat → Str → List (Nat × Str)
  | _, _, [] => []
  | 0, _, _ => []
  | fuel + 1, pos, c :: t =>
    if pyIsSpace c then tokensPosGo fuel (pos + 1) t
    else
      let w := (c :: t).takeWhile (fun a => !pyIsSpace a)
      (pos, w) :: tokensPosGo fuel (pos + w.length)
        (t.dropWhile (fun a => !pyIsSpace a))

def tokensPos (s : Str) : List (Nat × Str) := tokensPosGo s.length 0 s

/-- The scanning loop of `_find_notation_prefix_end`. -/
def findPfxLoop (text : Str) : List (Nat × Str) → Option Nat → Option Nat
  | [], lastEnd => lastEnd
  | (start, tok) :: rest, lastEnd =>
    match lastEnd with
    | some l =>
      if (sliceStr text l start).contains '\n' then
        if isChessNotatToken tok || tok == ['N'] || tok == ['t'] ||
            tok == ['+'] || tok == ['#'] then
          findPfxLoop text rest (some (start + tok.length))
        else lastEnd
      else
        if isChessNotatToken tok then
          findPfxLoop text rest (some (start + tok.length))
        else lastEnd
    | none =>
      if isChessNotatToken tok then
        findPfxLoop text rest (some (start + tok.length))
      else none

/-- `_find_notation_prefix_end` (`chess_pdf/translation_core.py`). -/
def findNotatPfxEnd (text : Str) : Option Nat :=
  findPfxLoop text (tokensPos text) none

/-- `_has_bold_leak` (`chess_pdf/translation_core.py`); the comparison
`coverage / max(1, plain_len) > 0.55` is stated exactly with cleared
denominators: `100 * coverage > 55 * max 1 plain_len`. -/
def hasBoldLeak (spans : List Str) (plainLen : Nat) (expectedCount : Nat) : Bool :=
  if plainLen = 0 then false
  else
    let coverage := (spans.map (fun sp => (stripWs sp).length)).sum
    decide (55 * max 1 plainLen < 100 * coverage) ||
      (decide (expectedCount ≠ 0) && decide (spans.length ≠ expectedCount))

/-- The contents of the `_BOLD_SPAN_RE` matches (lazy
`\[\[B\]\](.*?)\[\[/B\]\]`, DOTALL). -/
def boldSpansGo : Nat → Str → List Str
  | 0, _ => []
  | fuel + 1, s =>
    match firstOccur bS s with
    | none => []
    | some i =>
      match firstOccur bE ((s.drop i).drop bS.length) with
      | none => []
      | some j =>
        ((s.drop i).drop bS.length).take j ::
          boldSpansGo fuel (((s.drop i).drop bS.length).drop (j + bE.length))

def boldSpans (s : Str) : List Str := boldSpansGo (s.length + 1) s

/-- Python `text.replace(B_START, "").replace(B_END, "")`. -/
def stripMarkers (s : Str) : Str := replaceAll bE [] (replaceAll bS [] s)

/-- The `normalize_bold_content` body of `_normalize_notation_in_bold`. -/
def normalizeBoldContent (content : Str) : Str :=
  let c1 := reSub (reSeq [RE.grp 1 (reSeq [rePlus reDigit, RE.chr '.']),
    rePlus reWs]) (fun g => g 1) content
  let c2 := reSub (reSeq [rePlus reWs, RE.chr 'N', RE.eol]) (fun _ => ['N']) c1
  reSub (reSeq [RE.grp 1 (reStr "...".toList), rePlus reWs]) (fun g => g 1) c2

/-- `_normalize_notation_in_bold` (`chess_pdf/translation_core.py`). -/
def normalizeNotatInBold (text : Str) : Str :=
  if text.isEmpty || (firstOccur bS text).isNone then text
  else mapBoldPairsF (fun content => bS ++ normalizeBoldContent content ++ bE) text

/-- `_fix_novelty_outside_bold` (`chess_pdf/translation_core.py`). -/
def fixNoveltyOutsideBold (text : Str) : Str :=
  if text.isEmpty || (firstOccur bE text).isNone then text
  else
    let r1 := reSub (reSeq [RE.grp 1 (RE.opt (RE.chr ' ') true),
      RE.grp 2 (reStr bE), RE.grp 3 reWsStar, RE.grp 4 (RE.chr 'N'),
      RE.la (reAlts [RE.cls pyIsSpace, RE.eol]) true])
      (fun g => ('N' :: bE) ++ (if (g 3).contains '\n' then ['\n'] else [])) text
    reSub (reAtLeast (RE.chr '\n') 3) (fun _ => ['\n', '\n']) r1

/-- `\b\d{1,3}\s*(?:\.\.\.|\.)\s*[A-Za-z0-9][^\s,;:]*` (`_CHESS_MOVE_BOLD_RE`). -/
def chessMoveBoldRE : RE :=
  reSeq [RE.wordB true, reD13, reWsStar,
    reAlts [reStr "...".toList, RE.chr '.'], reWsStar,
    RE.cls (fun c => c.isAlpha || c.isDigit),
    RE.star (RE.cls (fun c => !pyIsSpace c && !",;:".toList.contains c)) true]

/-- `_HEADING_BOLD_RE` (IGNORECASE). -/
def headingBoldRE : RE :=
  reSeq [RE.wordB true,
    reAlts [reStrCI "diagram".toList, reStrCI "rysunek".toList,
      reStrCI "figure".toList,
      reSeq [reStrCI "fig".toList, RE.opt (RE.chr '.') true],
      reStrCI "game".toList, reStrCI "partia".toList,
      reStrCI "chapter".toList,
      reSeq [reStrCI "rozdzia".toList, reAnyOf "łlŁL".toList],
      reStrCI "exercise".toList,
      reSeq [reAnyOf "ćĆ".toList, reStrCI "wiczenie".toList]],
    RE.wordB true,
    RE.star (RE.cls (fun c => !(c == '\n'))) true]

/-- The shared leading-notation-lines loop of `_rebuild_bold_from_patterns`
and `_reapply_bold_markers`. -/
def notatLinesGo : List Str → Nat → List Str → List Str
  | [], _, acc => acc
  | line :: rest, i, acc =>
    let stripped := stripWs line
    if stripped == ['N'] && !acc.isEmpty then
      notatLinesGo rest (i + 1) (acc ++ [line])
    else if i == 0 && reHasMatchStart moveStartRE stripped then
      notatLinesGo rest (i + 1) (acc ++ [line])
    else if !acc.isEmpty && isChessNotatToken stripped then
      notatLinesGo rest (i + 1) (acc ++ [line])
    else acc

/-- Insert the marker pair at each `(start, stop)` span, processed in the
given (descending) order. -/
def insertMarkersDesc : List (Nat × Nat) → Str → Str
  | [], s => s
  | (st, en) :: rest, s =>
    let s1 := s.take en ++ bE ++ s.drop en
    insertMarkersDesc rest (s1.take st ++ bS ++ s1.drop st)

/-- `plain.find(c, start)` as an absolute position. -/
def findCharFrom (s : Str) (c : Char) (start : Nat) : Option Nat :=
  (firstOccur [c] (s.drop start)).map (· + start)

/-- `_rebuild_bold_from_patterns` (`chess_pdf/translation_core.py`). -/
def rebuildBoldFromPatterns (runs : List Run) (translatedText : Str) : Str :=
  let plain := stripMarkers translatedText
  let expected := runs.filter (fun r => r.bold && !(stripWs r.text).isEmpty)
  if expected.length = 0 then plain
  else
    let headCut : Option Str :=
      if reHasMatchStart moveStartRE plain then
        match findNotatPfxEnd plain with
        | some e =>
          if e ≠ 0 then
            let head := rstripWs (plain.take e)
            if !head.isEmpty then some (bS ++ head ++ bE ++ plain.drop e)
            else none
          else none
        | none => none
      else none
    match headCut with
    | some r => r
    | none =>
      let spans0 := (reFindIter chessMoveBoldRE plain).map
        (fun m => (m.1, min m.2.1 (m.1 + 140)))
      let spans1 := if spans0.isEmpty then
        (reFindIter headingBoldRE plain).map
          (fun m => (m.1, min m.2.1 (m.1 + 140)))
        else spans0
      if spans1.isEmpty then
        if (stripWs plain).isEmpty then plain
        else
          let lines := splitOnChar '\n' plain
          let notatLines := notatLinesGo lines 0 []
          if !notatLines.isEmpty then
            let boldPart := List.intercalate ['\n'] notatLines
            let restLines := lines.drop notatLines.length
            if !restLines.isEmpty then
              bS ++ boldPart ++ bE ++ '\n' :: List.intercalate ['\n'] restLines
            else bS ++ boldPart ++ bE
          else
            match firstOccur ['\n'] plain with
            | some p =>
              bS ++ plain.take p ++ bE ++ '\n' :: plain.drop (p + 1)
            | none => bS ++ plain ++ bE
      else
        let cleanSpans := spans1.map (fun se =>
          match findCharFrom plain '\n' se.1 with
          | some np => (se.1, min se.2 np)
          | none => se)
        insertMarkersDesc cleanSpans.reverse plain

/-- The maxsplit-1 split `re.split(r'(?<=[\.!?])\s+', plain, 1)`:
`some (before, after)` when a split point exists. -/
def sentenceSplit1Go : Option Char → Nat → Str → Option (Nat × Nat)
  | _, _, [] => none
  | prev, pos, c :: t =>
    if (match prev with
        | some p => p == '.' || p == '!' || p == '?'
        | none => false) && pyIsSpace c then
      some (pos, pos + ((c :: t).takeWhile pyIsSpace).length)
    else sentenceSplit1Go (some c) (pos + 1) t

def sentenceSplit1 (s : Str) : Option (Str × Str) :=
  match sentenceSplit1Go none 0 s with
  | some (p, q) => some (s.take p, s.drop q)
  | none => none

/-- `_reapply_bold_markers` (`chess_pdf/translation_core.py`). -/
def reapplyBoldMarkers (runs : List Run) (translatedText : Str) : Str :=
  if translatedText.isEmpty then translatedText
  else
    let t2 := normalizeNotatInBold (fixNoveltyOutsideBold translatedText)
    let expectedCount :=
      (runs.filter (fun r => r.bold && !(stripWs r.text).isEmpty)).length
    let spans := boldSpans t2
    let plain := stripMarkers t2
    let balanced := countOccur bS t2 == countOccur bE t2
    if !spans.isEmpty && balanced &&
        !hasBoldLeak spans plain.length expectedCount then t2
    else
      let branchA : Option Str :=
        if !spans.isEmpty && expectedCount == 1 then
          let headCut : Option Str :=
            if reHasMatchStart moveStartRE plain then
              match findNotatPfxEnd plain with
              | some e =>
                if e ≠ 0 && decide (e < plain.length) then
                  let head := rstripWs (plain.take e)
                  let tail := plain.drop e
                  if !head.isEmpty && !(stripWs tail).isEmpty then
                    some (bS ++ head ++ bE ++ tail)
                  else none
                else none
              | none => none
            else none
          match headCut with
          | some r => some r
          | none =>
            let totalSrc := (runs.map (fun r => r.text.length)).sum
            let boldSrc := ((runs.filter (fun r => r.bold)).map
              (fun r => r.text.length)).sum
            if 0 < totalSrc && 0 < boldSrc then
              let targetLen0 := plain.length * boldSrc / totalSrc
              let targetLen1 := max 1 (min plain.length targetLen0)
              let targetLen := match firstOccur ['\n'] plain with
                | some np => min targetLen1 np
                | none => targetLen1
              some (bS ++ plain.take targetLen ++ bE ++ plain.drop targetLen)
            else none
        else none
      match branchA with
      | some r => r
      | none =>
        if 0 < expectedCount && spans.isEmpty then
          let sentCut : Option Str :=
            if expectedCount == 1 then
              match sentenceSplit1 plain with
              | some (par1, par2) =>
                if !(stripWs par1).isEmpty && !(stripWs par2).isEmpty then
                  some (bS ++ par1 ++ bE ++ ' ' :: par2)
                else none
              | none => none
            else none
          match sentCut with
          | some r => r
          | none =>
            if plain.contains '\n' then
              let lines := splitOnChar '\n' plain
              let notatLines := notatLinesGo lines 0 []
              if !notatLines.isEmpty then
                let boldPart := List.intercalate ['\n'] notatLines
                let restLines := lines.drop notatLines.length
                let restPart := if restLines.isEmpty then []
                  else List.intercalate ['\n'] restLines
                if !restPart.isEmpty then
                  bS ++ boldPart ++ bE ++ '\n' :: restPart
                else bS ++ boldPart ++ bE
              else
                match firstOccur ['\n'] plain with
                | some p => bS ++ plain.take p ++ bE ++ '\n' :: plain.drop (p + 1)
                | none => bS ++ plain ++ bE
            else rebuildBoldFromPatterns runs plain
        else rebuildBoldFromPatterns runs t2

/-- `_HEADLINE_AFTER_BOLD_RE` and `_force_newline_after_bold_headings`
(`chess_pdf/translation_core.py`). -/
def forceNewlineAfterBoldHeadings (marked : Str) : Str :=
  reSub (reSeq [RE.grp 1 (reSeq [reStr bS, reWsStar, reD13, reWsStar,
      reAlts [reStr "...".toList, RE.chr '.'],
      RE.star (RE.cls (fun c => !(c == '['))) false,
      reStr bE]),
    RE.la (reSeq [reWsStar, RE.chr '\n']) false])
    (fun g => g 1 ++ ['\n']) marked

/-- A styled span as consumed by `_coalesce_style_runs`:
`{"text": ..., "is_bold": ...}`. -/
structure Span where
  text : Str
  is_bold : Bool
deriving DecidableEq, Repr

/-- The first loop of `_coalesce_style_runs`. -/
def coalesceGo : List Span → List Run → List Run
  | [], runs => runs
  | sp :: rest, runs =>
    if sp.text.isEmpty then coalesceGo rest runs
    else
      let b := sp.is_bold
      let runs2 :=
        if sp.text == [' '] && !runs.isEmpty &&
            (runs.getLast?.map Run.bold).getD false == b then
          runs.dropLast ++ [⟨(runs.getLast?.map Run.text).getD [] ++ [' '], b⟩]
        else if !runs.isEmpty && (runs.getLast?.map Run.bold).getD false == b then
          let prevText := (runs.getLast?.map Run.text).getD []
          let newText :=
            if !prevText.isEmpty && !sp.text.isEmpty then
              if !pyIsSpace (prevText.getLastD ' ') &&
                  !pyIsSpace (sp.text.headD ' ') then
                prevText ++ ' ' :: sp.text
              else prevText ++ sp.text
            else prevText ++ sp.text
          runs.dropLast ++ [⟨newText, b⟩]
        else runs ++ [⟨sp.text, b⟩]
      coalesceGo rest runs2

/-- The secondary `[bold][whitespace-only non-bold][bold]` merge pass of
`_coalesce_style_runs`. -/
def coalesceMerge : List Run → List Run
  | r1 :: r2 :: r3 :: rest =>
    if r1.bold && (stripWs r2.text).isEmpty && !r2.bold && r3.bold then
      ⟨r1.text ++ r2.text ++ r3.text, true⟩ :: coalesceMerge rest
    else r1 :: coalesceMerge (r2 :: r3 :: rest)
  | l => l

/-- `_coalesce_style_runs` (`chess_pdf/translation_core.py`). -/
def coalesceStyleRuns (spans : List Span) : List Run :=
  let runs := coalesceGo spans []
  let runs2 := runs.map (fun r =>
    ⟨r.text.filter (fun c => !(c == Char.ofNat 0xAD)), r.bold⟩)
  coalesceMerge runs2

/-- A text block (`Block` dict) as used by `translate_blocks_intelligent`;
optional fields model missing dict keys. -/
structure Block where
  text : Str
  spans : List Span
  styleSpansBackup : Option (List Span)
  ocrSpansBackup : Option (List Span)
  translated_marked : Option Str
  translated : Option Str
deriving Repr

/-- The `_style_spans_backup or _ocr_spans_backup or spans` chain
(Python `or` skips `None` and empty lists). -/
def styleSpansOf (b : Block) : List Span :=
  let a := (b.styleSpansBackup.getD [])
  if !a.isEmpty then a
  else
    let c := (b.ocrSpansBackup.getD [])
    if !c.isEmpty then c
    else b.spans

/-- `_build_runs_from_block` (`chess_pdf/translation_core.py`). -/
def buildRunsFromBlock (b : Block) : List Run :=
  let text := b.text
  let styleSpans := styleSpansOf b
  if styleSpans.isEmpty then
    if !text.isEmpty then [⟨text, false⟩] else []
  else
    let styleRuns := coalesceStyleRuns styleSpans
    if styleRuns.isEmpty then
      if !text.isEmpty then [⟨text, false⟩] else []
    else if text.isEmpty then styleRuns
    else
      let styleText := (styleRuns.map Run.text).flatten
      if styleText == text then styleRuns
      else projectStyleRunsOntoText styleRuns text

/-- The per-translation postprocessing applied inside
`translate_blocks_intelligent`'s result loop. -/
def processTranslated (runs : List Run) (tr : Str) : Str :=
  forceNewlineAfterBoldHeadings
    (reapplyBoldMarkers runs (postprocess_translated_marked tr))

/-- The payload-collection pass of `translate_blocks_intelligent`:
blocks with no text and no spans get an empty `translated_marked`; the
others contribute a marked payload and their index. -/
def collectPayloads : List Block → Nat →
    List Block × List Str × List Nat × List (Nat × List Run)
  | [], _ => ([], [], [], [])
  | b :: rest, i =>
    let (bs, ps, idx, rm) := collectPayloads rest (i + 1)
    if (stripWs b.text).isEmpty && b.spans.isEmpty then
      ({ b with translated_marked := some [] } :: bs, ps, idx, rm)
    else
      let runs := buildRunsFromBlock b
      let marked := if runs.isEmpty then [] else runsToMarkedText runs
      (b :: bs, marked :: ps, i :: idx, (i, runs) :: rm)

/-- In-place update `blocks[i] = f(blocks[i])` of the Python result loop. -/
def modifyAt {α : Type} (f : α → α) : List α → Nat → List α
  | [], _ => []
  | x :: xs, 0 => f x :: xs
  | x :: xs, n + 1 => x :: modifyAt f xs n

/-- The result-application loop of `translate_blocks_intelligent`: write
each processed translation into the block at `idx_map[j]`; Python raises
`IndexError` (modelled by `none`) if the translator returned more entries
than payloads. -/
def applyTranslations (runsMap : List (Nat × List Run)) :
    List Str → List Nat → List Block → Option (List Block)
  | [], _, blocks => some blocks
  | _ :: _, [], _ => none
  | tr :: trs, i :: idx, blocks =>
    let runs := ((runsMap.find? (fun p => p.1 == i)).map Prod.snd).getD []
    let tr2 := processTranslated runs tr
    applyTranslations runsMap trs idx
      (modifyAt (fun b => { b with translated_marked := some tr2 }) blocks i)

/-- `translate_blocks_intelligent` (`chess_pdf/translation_core.py`), with
the external translator as a function (`none` models a raised exception,
caught in the source by falling back to the payloads). -/
def translateBlocksIntelligent
    (translator : List Str → Option (List Str)) (blocks : List Block) :
    Option (List Block) :=
  let (blocks1, payloads, idxMap, runsMap) := collectPayloads blocks 0
  let translatedList :=
    if payloads.isEmpty then []
    else (translator payloads).getD payloads
  match applyTranslations runsMap translatedList idxMap blocks1 with
  | none => none
  | some blocks2 =>
    some (blocks2.map (fun b =>
      { b with translated := some (stripMarkers (b.translated_marked.getD [])) }))

/-- C2: the notation-repair pipeline is NOT idempotent. On the input
`"1, 2"` one pass yields `"1. 2"` (the comma rule, which runs after
`_normalize_move_numbers`, rewrites `1,` to `1. `), but a second pass
yields `"1.2"` (`_normalize_move_numbers` now swallows the space after the
dot), so `repair(repair(x)) ≠ repair(x)`. -/
theorem c2_not_idempotent :
    postprocess_translated_marked "1, 2".toList = "1. 2".toList ∧
    postprocess_translated_marked "1. 2".toList = "1.2".toList ∧
    postprocess_translated_marked
        (postprocess_translated_marked "1, 2".toList) ≠
      postprocess_translated_marked "1, 2".toList := by
  decide

/-- The marked text used in the C3 counterexample. -/
def c3t : Str := "[[B]]1. e4[[/B]] That was the move played in the game".toList

/-- C3 (counterexample): a translated text whose markers are balanced,
with exactly one bold span matching the expected count of one non-empty
bold run, and with bold coverage well under the 0.55 threshold — yet
`_reapply_bold_markers` does not return it as-is: the
`_normalize_notation_in_bold` prepass rewrites `1. e4` to `1.e4` inside
the bold span before the trust guard even runs. -/
theorem c3_counterexample :
    countOccur bS c3t = countOccur bE c3t ∧
    (boldSpans c3t).length =
      (([⟨"1. e4".toList, true⟩] : List Run).filter
        (fun r => r.bold && !(stripWs r.text).isEmpty)).length ∧
    hasBoldLeak (boldSpans c3t) (stripMarkers c3t).length
      (([⟨"1. e4".toList, true⟩] : List Run).filter
        (fun r => r.bold && !(stripWs r.text).isEmpty)).length = false ∧
    reapplyBoldMarkers [⟨"1. e4".toList, true⟩] c3t ≠ c3t := by
  decide

/-- C3 (amended): if the translated text is non-empty, is a fixed point of
the two prepasses (`_fix_novelty_outside_bold` then
`_normalize_notation_in_bold`), has at least one bold span, balanced
marker counts, and no bold leak (coverage at most the 0.55 threshold and
span count matching the expected count), then `_reapply_bold_markers`
trusts the markers and returns the text as-is. -/
theorem c3_reapply_trusted (runs : List Run) (t : Str)
    (hne : t ≠ [])
    (hfix : normalizeNotatInBold (fixNoveltyOutsideBold t) = t)
    (hspans : boldSpans t ≠ [])
    (hbal : countOccur bS t = countOccur bE t)
    (hleak : hasBoldLeak (boldSpans t) (stripMarkers t).length
      ((runs.filter (fun r => r.bold && !(stripWs r.text).isEmpty)).length)
      = false) :
    reapplyBoldMarkers runs t = t := by
  have hne' : t.isEmpty = false := by
    cases t with
    | nil => exact absurd rfl hne
    | cons c s => rfl
  have hsp' : (boldSpans t).isEmpty = false := by
    cases hb : boldSpans t with
    | nil => exact absurd hb hspans
    | cons a l => rfl
  have hbal' : (countOccur bS t == countOccur bE t) = true := by
    simp [hbal]
  unfold reapplyBoldMarkers
  rw [hne']
  simp only [Bool.false_eq_true, if_false, hfix, hsp', hbal', hleak]
  simp

/-- Closed instance of `c3_reapply_trusted`: an already-normalized marked
text with one bold move and low coverage is returned unchanged. -/
theorem c3_reapply_trusted_witness :
    reapplyBoldMarkers [⟨"1.e4".toList, true⟩]
        "[[B]]1.e4[[/B]] That was the move played in the game".toList =
      "[[B]]1.e4[[/B]] That was the move played in the game".toList :=
  c3_reapply_trusted _ _ (by decide) (by decide) (by decide) (by decide)
    (by decide)

lemma modifyAt_getq_ne {α : Type} (f : α → α) :
    ∀ (l : List α) (i j : Nat), i ≠ j → (modifyAt f l i)[j]? = l[j]? := by
  intro l
  induction l with
  | nil => intro i j _; cases i <;> rfl
  | cons x xs ih =>
    intro i j hij
    cases i with
    | zero =>
      cases j with
      | zero => exact absurd rfl hij
      | succ j => simp [modifyAt]
    | succ i =>
      cases j with
      | zero => simp [modifyAt]
      | succ j =>
        simp only [modifyAt, List.getElem?_cons_succ]
        exact ih i j (by omega)

lemma collectPayloads_idx_ge :
    ∀ (bs : List Block) (i k : Nat),
      k ∈ (collectPayloads bs i).2.2.1 → i ≤ k := by
  intro bs
  induction bs with
  | nil => intro i k hk; simp [collectPayloads] at hk
  | cons b rest ih =>
    intro i k hk
    rcases hcp : collectPayloads rest (i + 1) with ⟨bs1, ps1, idx1, rm1⟩
    have ih' : ∀ k, k ∈ idx1 → i + 1 ≤ k := by
      intro k hk2
      have := ih (i + 1) k
      rw [hcp] at this
      exact this hk2
    simp only [collectPayloads, hcp] at hk
    by_cases hc : ((stripWs b.text).isEmpty && b.spans.isEmpty) = true
    · rw [if_pos hc] at hk
      exact Nat.le_of_succ_le (ih' k hk)
    · rw [if_neg hc] at hk
      rcases List.mem_cons.mp hk with rfl | hk2
      · exact le_refl k
      · exact Nat.le_of_succ_le (ih' k hk2)

lemma collectPayloads_empty_block :
    ∀ (bs : List Block) (i j : Nat) (b : Block),
      bs[j]? = some b → (stripWs b.text).isEmpty = true → b.spans = [] →
      (collectPayloads bs i).1[j]? =
          some { b with translated_marked := some [] } ∧
        (i + j) ∉ (collectPayloads bs i).2.2.1 := by
  intro bs
  induction bs with
  | nil => intro i j b hjb _ _; simp at hjb
  | cons hd rest ih =>
    intro i j b hjb hempty hspans
    rcases hcp : collectPayloads rest (i + 1) with ⟨bs1, ps1, idx1, rm1⟩
    have hge : ∀ k, k ∈ idx1 → i + 1 ≤ k := by
      intro k hk
      have := collectPayloads_idx_ge rest (i + 1) k
      rw [hcp] at this
      exact this hk
    cases j with
    | zero =>
      have hb : hd = b := by simpa using hjb
      subst hb
      have hc : ((stripWs hd.text).isEmpty && hd.spans.isEmpty) = true := by
        rw [hempty, hspans]; rfl
      simp only [collectPayloads, hcp, hc, if_true]
      refine ⟨by simp, ?_⟩
      intro hmem
      have := hge (i + 0) hmem
      omega
    | succ j =>
      have hjb' : rest[j]? = some b := by simpa using hjb
      have ih' := ih (i + 1) j b hjb' hempty hspans
      rw [hcp] at ih'
      obtain ⟨ih1, ih2⟩ := ih'
      have hidx : i + (j + 1) = (i + 1) + j := by omega
      by_cases hc : ((stripWs hd.text).isEmpty && hd.spans.isEmpty) = true
      · simp only [collectPayloads, hcp, hc, if_true]
        refine ⟨by simpa using ih1, ?_⟩
        rw [hidx]
        exact ih2
      · simp only [collectPayloads, hcp, hc, if_false]
        refine ⟨by simpa using ih1, ?_⟩
        intro hmem
        rcases List.mem_cons.mp hmem with heq | hmem2
        · omega
        · rw [hidx] at hmem2
          exact ih2 hmem2

lemma applyTranslations_untouched :
    ∀ (rm : List (Nat × List Run)) (trs : List Str) (idx : List Nat)
      (blocks res : List Block),
      applyTranslations rm trs idx blocks = some res →
      ∀ j, j ∉ idx → res[j]? = blocks[j]? := by
  intro rm trs
  induction trs with
  | nil =>
    intro idx blocks res h j _
    cases idx with
    | nil =>
      have : blocks = res := by simpa [applyTranslations] using h
      rw [this]
    | cons i idx' =>
      have : blocks = res := by simpa [applyTranslations] using h
      rw [this]
  | cons tr trs ih =>
    intro idx blocks res h j hj
    cases idx with
    | nil => simp [applyTranslations] at h
    | cons i idx' =>
      simp only [applyTranslations] at h
      have hji : j ≠ i := fun he => hj (he ▸ List.mem_cons_self i idx')
      have hj' : j ∉ idx' := fun hm => hj (List.mem_cons_of_mem i hm)
      have := ih idx' _ res h j hj'
      rw [this, modifyAt_getq_ne _ _ _ _ (fun he => hji he.symm)]

/-- C10: after `translate_blocks_intelligent` succeeds, every output
block's `translated` field is its `translated_marked` field with every
`[[B]]` and `[[/B]]` token removed, and a block with neither (non-blank)
text nor spans comes out with the empty string in both fields. -/
theorem c10_translated_strips_markers
    (translator : List Str → Option (List Str)) (blocks out : List Block)
    (h : translateBlocksIntelligent translator blocks = some out) :
    (∀ b ∈ out,
      b.translated = some (stripMarkers (b.translated_marked.getD []))) ∧
    (∀ (j : Nat) (b : Block), blocks[j]? = some b →
      (stripWs b.text).isEmpty = true → b.spans = [] →
      ∃ b2, out[j]? = some b2 ∧ b2.translated_marked = some [] ∧
        b2.translated = some []) := by
  rcases hcp : collectPayloads blocks 0 with ⟨blocks1, payloads, idxMap, runsMap⟩
  unfold translateBlocksIntelligent at h
  rw [hcp] at h
  dsimp only at h
  rcases hat : applyTranslations runsMap
      (if payloads.isEmpty then [] else (translator payloads).getD payloads)
      idxMap blocks1 with _ | blocks2
  · rw [hat] at h; simp at h
  · rw [hat] at h
    simp only [Option.some.injEq] at h
    constructor
    · intro b hb
      rw [← h] at hb
      rcases List.mem_map.mp hb with ⟨b', _, rfl⟩
      rfl
    · intro j b hjb hempty hspans
      have hcb := collectPayloads_empty_block blocks 0 j b hjb hempty hspans
      rw [hcp] at hcb
      obtain ⟨hc1, hc2⟩ := hcb
      have hnotin : j ∉ idxMap := by
        intro hm
        exact hc2 (by simpa using hm)
      have huj := applyTranslations_untouched runsMap _ idxMap blocks1 blocks2
        hat j hnotin
      have hb2 : out[j]? =
          some { b with translated_marked := some ([] : Str), translated := some ([] : Str) } := by
        rw [← h, List.getElem?_map, huj, hc1]
        rfl
      exact ⟨_, hb2, rfl, rfl⟩

/-- The block list used in the C10 witness: one blank block and one plain
text block. -/
def c10wBlocks : List Block :=
  [⟨[], [], none, none, none, none⟩,
   ⟨"abc".toList, [⟨"abc".toList, false⟩], none, none, none, none⟩]

/-- Closed instance of `c10_translated_strips_markers` on a concrete block
list with the identity translator. -/
theorem c10_translated_strips_markers_witness :
    ∃ out,
      translateBlocksIntelligent (fun ps => some ps) c10wBlocks = some out ∧
      (∀ b ∈ out,
        b.translated = some (stripMarkers (b.translated_marked.getD []))) ∧
      (∀ (j : Nat) (b : Block), c10wBlocks[j]? = some b →
        (stripWs b.text).isEmpty = true → b.spans = [] →
        ∃ b2, out[j]? = some b2 ∧ b2.translated_marked = some [] ∧
          b2.translated = some []) :=
  ⟨_, rfl, c10_translated_strips_markers (fun ps => some ps) c10wBlocks _ rfl⟩

/-! `chess_translator/protect.py`: placeholder protection of chess
notation around an external translator. -/

/-- ASCII decimal digit test on the character code. -/
def isDigCh (c : Char) : Bool := decide (48 ≤ c.toNat) && decide (c.toNat ≤ 57)

/-- Digit accumulator for Python `str(n)`; fuel only forces structural
termination and always suffices at `n + 1`. -/
def natDigitsGo : Nat → Nat → Str → Str
  | 0, _, acc => acc
  | fuel + 1, n, acc =>
    if n < 10 then Char.ofNat (48 + n % 10) :: acc
    else natDigitsGo fuel (n / 10) (Char.ofNat (48 + n % 10) :: acc)

/-- Python `str(n)` for a natural number. -/
def pyStr (n : Nat) : Str := natDigitsGo (n + 1) n []

/-- The fixed head `<<<CHESS_` of a protection placeholder. -/
def phmHead : Str := ['<', '<', '<', 'C', 'H', 'E', 'S', 'S', '_']

/-- The fully stripped placeholder `<<<CHESS_k>>>`. -/
def phm (k : Nat) : Str := phmHead ++ pyStr k ++ ['>', '>', '>']

/-- The raw placeholder `" <<<CHESS_k>>> "` before side-space stripping. -/
def phRaw (k : Nat) : Str := ' ' :: (phm k ++ [' '])

/-- The alternative placeholder form `§CHESSk§` accepted by the restorer. -/
def secPat (k : Nat) : Str :=
  '§' :: ('C' :: 'H' :: 'E' :: 'S' :: 'S' :: (pyStr k ++ ['§']))

/-- The alternative placeholder form `[CHESS_k_PROTECT]` accepted by the
restorer. -/
def brkPat (k : Nat) : Str :=
  '[' :: ('C' :: 'H' :: 'E' :: 'S' :: 'S' :: '_' ::
    (pyStr k ++ ['_', 'P', 'R', 'O', 'T', 'E', 'C', 'T', ']']))

/-- An extracted element `(start, end, notation)`. -/
structure El where
  start : Nat
  stop : Nat
  notat : Str
deriving DecidableEq, Repr

/-- `\b(\d+)\s*\.\s*(?:\.\.)?` (move numbers). -/
def moveNumElRE : RE :=
  reSeq [RE.wordB true, RE.grp 1 (rePlus reDigit), reWsStar, RE.chr '.',
    reWsStar, RE.opt (reStr "..".toList) true]

/-- `\b([KQRBN]?[a-h]?[1-8]?x?[a-h][1-8][+#!?]*)` (piece and pawn moves). -/
def sanElRE : RE :=
  reSeq [RE.wordB true, RE.grp 1 (reSeq [
    RE.opt (reAnyOf "KQRBN".toList) true,
    RE.opt (reAnyOf "abcdefgh".toList) true,
    RE.opt (reAnyOf "12345678".toList) true,
    RE.opt (RE.chr 'x') true,
    reAnyOf "abcdefgh".toList,
    reAnyOf "12345678".toList,
    RE.star (reAnyOf "+#!?".toList) true])]

/-- `\bO-O(?:-O)?\b` (castling). -/
def castleElRE : RE :=
  reSeq [RE.wordB true, RE.chr 'O', RE.chr '-', RE.chr 'O',
    RE.opt (reSeq [RE.chr '-', RE.chr 'O']) true, RE.wordB true]

/-- `\b(?:1-0|0-1|1/2-1/2)\b` (game results). -/
def resultElRE : RE :=
  reSeq [RE.wordB true,
    reAlts [reStr "1-0".toList, reStr "0-1".toList, reStr "1/2-1/2".toList],
    RE.wordB true]

/-- The Python-side filter on piece/pawn move candidates:
`^[a-h][1-8]$`, or contains `x`, a piece letter, or an annotation glyph. -/
def sanKeep (mv : Str) : Bool :=
  (match mv with
   | [a, d] => "abcdefgh".toList.contains a && "12345678".toList.contains d
   | _ => false) ||
  mv.contains 'x' ||
  "KQRBN".toList.any (fun c => mv.contains c) ||
  "+#!?".toList.any (fun c => mv.contains c)

/-- One finditer pass mapped to elements (`m.group()` is the slice of the
text between `m.start()` and `m.end()`). -/
def elsOf (text : Str) (r : RE) : List El :=
  (reFindIter r text).map (fun m => ⟨m.1, m.2.1, sliceStr text m.1 m.2.1⟩)

/-- Stable insertion (Python `list.sort(key=lambda x: x[0])` keeps the
original order of equal keys; later elements insert after them). -/
def insEl (e : El) : List El → List El
  | [] => [e]
  | x :: xs => if x.start ≤ e.start then x :: insEl e xs else e :: x :: xs

/-- The overlap filter of `extract_chess_elements` (`last_end` starts at
`-1` in Python; `0` is equivalent since starts are nonnegative). -/
def overlapGo : List El → Nat → List El
  | [], _ => []
  | e :: rest, lastEnd =>
    if lastEnd ≤ e.start then e :: overlapGo rest e.stop
    else overlapGo rest lastEnd

/-- `extract_chess_elements` (`chess_translator/protect.py`). -/
def extract_chess_elements (text : Str) : List El :=
  let l1 := elsOf text moveNumElRE
  let l2 := (elsOf text sanElRE).filter (fun e => sanKeep e.notat)
  let l3 := elsOf text castleElRE
  let l4 := elsOf text resultElRE
  let sorted := (l1 ++ l2 ++ l3 ++ l4).foldl (fun acc e => insEl e acc) []
  overlapGo sorted 0

/-- The placeholder-splicing loop of the protection routine, processing
the enumerated elements in reverse with their original indices as ids. -/
def protectGo : List (Nat × El) → Str → Str
  | [], s => s
  | (k, e) :: rest, s =>
    let leftSp := decide (0 < e.start) && pyIsSpace (s.getD (e.start - 1) 'x')
    let rightSp := decide (e.stop < s.length) && pyIsSpace (s.getD e.stop 'x')
    let ph :=
      if leftSp && rightSp then stripWs (phRaw k)
      else if leftSp then lstripWs (phRaw k)
      else if rightSp then rstripWs (phRaw k)
      else phRaw k
    protectGo rest (s.take e.start ++ ph ++ s.drop e.stop)

/-- The protection routine of `chess_translator/protect.py`: replace
extracted notation with placeholders, right to left. -/
def protectChessNotat (text : Str) : Str × List Str :=
  let elements := extract_chess_elements text
  (protectGo elements.enum.reverse text, elements.map El.notat)

/-- The replacement loop of the restoration routine. -/
def restoreGo : Str → Nat → List Str → Str
  | res, _, [] => res
  | res, i, nt :: rest =>
    restoreGo (replaceAll (brkPat i) nt (replaceAll (secPat i) nt
      (replaceAll (phm i) nt res))) (i + 1) rest

/-- The restoration routine of `chess_translator/protect.py`: substitute
each placeholder form back with its notation. -/
def restoreChessNotat (translated : Str) (placeholders : List Str) : Str :=
  restoreGo translated 0 placeholders

/-- Well-placed enumerated elements over `t` starting at id `i` and cursor
`c`: ids are consecutive, every element is in bounds, space-surrounded in
`t`, strictly separated from the next one, and its notation is the slice
of `t` it was extracted from. -/
def goodElsB (t : Str) : Nat → Nat → List (Nat × El) → Bool
  | _, _, [] => true
  | i, c, (k, e) :: rest =>
    k == i && decide (c ≤ e.start) && decide (0 < e.start) &&
    decide (e.start ≤ e.stop) && decide (e.stop < t.length) &&
    pyIsSpace (t.getD (e.start - 1) 'x') && pyIsSpace (t.getD e.stop 'x') &&
    (match rest with
     | [] => true
     | (_, e2) :: _ => decide (e.stop < e2.start)) &&
    (e.notat == sliceStr t e.start e.stop) &&
    goodElsB t (i + 1) e.stop rest

/-- The protected string, described structurally: gaps of `t` interleaved
with fully stripped placeholders. -/
def protSpec (t : Str) : List (Nat × El) → Nat → Str
  | [], c => t.drop c
  | (k, e) :: rest, c => sliceStr t c e.start ++ phm k ++ protSpec t rest e.stop

lemma natDigitsGo_digits : ∀ (fuel n : Nat) (acc : Str),
    (∀ c ∈ acc, isDigCh c = true) →
    ∀ c ∈ natDigitsGo fuel n acc, isDigCh c = true := by
  intro fuel
  induction fuel with
  | zero => intro n acc hacc c hc; exact hacc c hc
  | succ f ih =>
    intro n acc hacc c hc
    have hdig : isDigCh (Char.ofNat (48 + n % 10)) = true := by
      have hcase : n % 10 = 0 ∨ n % 10 = 1 ∨ n % 10 = 2 ∨ n % 10 = 3 ∨
          n % 10 = 4 ∨ n % 10 = 5 ∨ n % 10 = 6 ∨ n % 10 = 7 ∨
          n % 10 = 8 ∨ n % 10 = 9 := by omega
      rcases hcase with h | h | h | h | h | h | h | h | h | h <;> rw [h] <;> decide
    rw [natDigitsGo] at hc
    by_cases h10 : n < 10
    · rw [if_pos h10] at hc
      rcases List.mem_cons.mp hc with rfl | hmem
      · exact hdig
      · exact hacc c hmem
    · rw [if_neg h10] at hc
      refine ih (n / 10) _ ?_ c hc
      intro d hd
      rcases List.mem_cons.mp hd with rfl | hmem
      · exact hdig
      · exact hacc d hmem

lemma pyStr_digits (n : Nat) : ∀ c ∈ pyStr n, isDigCh c = true :=
  natDigitsGo_digits (n + 1) n [] (by intro c hc; simp at hc)

lemma natDigitsGo_ne_nil : ∀ (fuel n : Nat) (acc : Str),
    0 < fuel ∨ acc ≠ [] → natDigitsGo fuel n acc ≠ [] := by
  intro fuel
  induction fuel with
  | zero =>
    intro n acc h
    rcases h with h | h
    · omega
    · simpa [natDigitsGo] using h
  | succ f ih =>
    intro n acc _
    rw [natDigitsGo]
    split
    · simp
    · exact ih _ _ (Or.inr (by simp))

lemma pyStr_ne_nil (n : Nat) : pyStr n ≠ [] :=
  natDigitsGo_ne_nil (n + 1) n [] (Or.inl (by omega))

lemma natDigitsGo_val : ∀ (fuel n : Nat) (acc : Str), n < fuel →
    (natDigitsGo fuel n acc).foldl (fun a c => 10 * a + (c.toNat - 48)) 0 =
      acc.foldl (fun a c => 10 * a + (c.toNat - 48)) n := by
  intro fuel
  induction fuel with
  | zero => intro n acc h; omega
  | succ f ih =>
    intro n acc hlt
    have hd : (Char.ofNat (48 + n % 10)).toNat - 48 = n % 10 := by
      have hcase : n % 10 = 0 ∨ n % 10 = 1 ∨ n % 10 = 2 ∨ n % 10 = 3 ∨
          n % 10 = 4 ∨ n % 10 = 5 ∨ n % 10 = 6 ∨ n % 10 = 7 ∨
          n % 10 = 8 ∨ n % 10 = 9 := by omega
      rcases hcase with h | h | h | h | h | h | h | h | h | h <;> rw [h] <;> decide
    rw [natDigitsGo]
    by_cases h10 : n < 10
    · rw [if_pos h10]
      simp only [List.foldl_cons]
      rw [hd]
      have : 10 * 0 + n % 10 = n := by omega
      rw [this]
    · rw [if_neg h10]
      have hrec : n / 10 < f := by omega
      rw [ih (n / 10) _ hrec]
      simp only [List.foldl_cons]
      rw [hd]
      have : 10 * (n / 10) + n % 10 = n := by omega
      rw [this]

lemma pyStr_val (n : Nat) :
    (pyStr n).foldl (fun a c => 10 * a + (c.toNat - 48)) 0 = n := by
  have h := natDigitsGo_val (n + 1) n [] (by omega)
  simpa [pyStr] using h

lemma pyStr_inj {m n : Nat} (h : pyStr m = pyStr n) : m = n := by
  have hm := pyStr_val m
  have hn := pyStr_val n
  rw [h] at hm
  omega

lemma startsW_append_both : ∀ (x p s : Str),
    startsW (x ++ p) (x ++ s) = startsW p s := by
  intro x
  induction x with
  | nil => intro p s; rfl
  | cons a x' ih =>
    intro p s
    simp only [List.cons_append, startsW, beq_self_eq_true, Bool.true_and]
    exact ih p s

lemma firstOccur_cons_none {pat : Str} {c : Char} {t : Str}
    (h1 : startsW pat (c :: t) = false) (h2 : firstOccur pat t = none) :
    firstOccur pat (c :: t) = none := by
  rw [firstOccur]
  simp [h1, h2]

lemma firstOccur_none_of_head_notMem {c0 : Char} {ps s : Str} (h : c0 ∉ s) :
    firstOccur (c0 :: ps) s = none := by
  induction s with
  | nil => rfl
  | cons a t ih =>
    have ha : a ≠ c0 := fun he => h (he ▸ List.mem_cons_self a t)
    have h1 : startsW (c0 :: ps) (a :: t) = false := by
      have hb : (c0 == a) = false := by
        simp only [beq_eq_false_iff_ne]
        exact fun he => ha he.symm
      simp [startsW, hb]
    exact firstOccur_cons_none h1 (ih (fun hm => h (List.mem_cons_of_mem a hm)))

lemma firstOccur_none_append {c0 : Char} {ps : Str} (y : Str)
    (hy : firstOccur (c0 :: ps) y = none) :
    ∀ (x : Str), c0 ∉ x → firstOccur (c0 :: ps) (x ++ y) = none := by
  intro x
  induction x with
  | nil => intro _; simpa using hy
  | cons a x' ih =>
    intro h
    have ha : a ≠ c0 := fun he => h (he ▸ List.mem_cons_self a x')
    have h1 : startsW (c0 :: ps) (a :: (x' ++ y)) = false := by
      have hb : (c0 == a) = false := by
        simp only [beq_eq_false_iff_ne]
        exact fun he => ha he.symm
      simp [startsW, hb]
    have h2 := ih (fun hm => h (List.mem_cons_of_mem a hm))
    rw [List.cons_append]
    exact firstOccur_cons_none h1 h2

lemma dig_startsW_eq : ∀ (d1 d2 y : Str),
    (∀ c ∈ d1, isDigCh c = true) → (∀ c ∈ d2, isDigCh c = true) →
    startsW (d1 ++ ['>', '>', '>']) (d2 ++ (['>', '>', '>'] ++ y)) = true →
    d1 = d2 := by
  intro d1
  induction d1 with
  | nil =>
    intro d2 y _ hd2 hsw
    cases d2 with
    | nil => rfl
    | cons b d2' =>
      exfalso
      have hb := hd2 b (List.mem_cons_self b d2')
      simp only [List.nil_append, List.cons_append, startsW, Bool.and_eq_true,
        beq_iff_eq] at hsw
      rcases hsw with ⟨he, _⟩
      rw [← he] at hb
      exact absurd hb (by decide)
  | cons a d1' ih =>
    intro d2 y hd1 hd2 hsw
    cases d2 with
    | nil =>
      exfalso
      have ha := hd1 a (List.mem_cons_self a d1')
      simp only [List.cons_append, List.nil_append, startsW, Bool.and_eq_true,
        beq_iff_eq] at hsw
      rcases hsw with ⟨he, _⟩
      rw [he] at ha
      exact absurd ha (by decide)
    | cons b d2' =>
      simp only [List.cons_append, startsW, Bool.and_eq_true, beq_iff_eq] at hsw
      rcases hsw with ⟨he, hrest⟩
      have htail : d1' = d2' := by
        refine ih d2' y ?_ ?_ ?_
        · intro c hc; exact hd1 c (List.mem_cons_of_mem a hc)
        · intro c hc; exact hd2 c (List.mem_cons_of_mem b hc)
        · simpa [List.cons_append] using hrest
      rw [he, htail]

lemma phm_eq_cons (k : Nat) : phm k =
    '<' :: '<' :: '<' :: 'C' :: 'H' :: 'E' :: 'S' :: 'S' :: '_' ::
      (pyStr k ++ ['>', '>', '>']) := by
  simp [phm, phmHead]

lemma mem_pyStr_ne_lt {k : Nat} {c : Char} (hc : c ∈ pyStr k) : c ≠ '<' := by
  intro he
  have := pyStr_digits k c hc
  rw [he] at this
  exact absurd this (by decide)

lemma phm_length (k : Nat) : (phm k).length = 12 + (pyStr k).length := by
  rw [phm_eq_cons]
  simp [List.length_append]
  omega

lemma noStraddle_phm (k : Nat) : noStraddle (phm k) := by
  intro m hm hpos heq
  have hL : 13 ≤ (phm k).length := by
    have h1 := phm_length k
    have h2 : (pyStr k).length ≠ 0 := by
      intro hz
      exact pyStr_ne_nil k (List.eq_nil_of_length_eq_zero hz)
    omega
  rcases Nat.lt_or_ge m 3 with h3 | h3
  · interval_cases m
    · -- m = 1: compare the first three characters
      have h := congrArg (List.take 3) heq
      rw [List.take_take] at h
      have hmin : min 3 ((phm k).length - 1) = 3 := by omega
      rw [hmin] at h
      rw [phm_eq_cons] at h
      simp at h
    · -- m = 2: compare the first two characters
      have h := congrArg (List.take 2) heq
      rw [List.take_take] at h
      have hmin : min 2 ((phm k).length - 2) = 2 := by omega
      rw [hmin] at h
      rw [phm_eq_cons] at h
      simp at h
  · -- m ≥ 3: the dropped list starts with a non-'<' character, the prefix
    -- with '<'
    obtain ⟨m', rfl⟩ : ∃ m', m = m' + 3 := ⟨m - 3, by omega⟩
    have hh := congrArg List.head? heq
    have hrhs : (List.take ((phm k).length - (m' + 3)) (phm k)).head? =
        some '<' := by
      have hpos2 : 0 < (phm k).length - (m' + 3) := by omega
      rcases hn : (phm k).length - (m' + 3) with _ | n
      · omega
      · rw [phm_eq_cons]; rfl
    rw [hrhs] at hh
    rw [phm_eq_cons] at hh
    simp only [List.drop_succ_cons] at hh
    set T := 'C' :: 'H' :: 'E' :: 'S' :: 'S' :: '_' :: (pyStr k ++ ['>', '>', '>'])
      with hT
    cases hdT : List.drop m' T with
    | nil => rw [hdT] at hh; simp at hh
    | cons x xs =>
      rw [hdT] at hh
      simp only [List.head?_cons, Option.some.injEq] at hh
      have hxT : x ∈ T := List.drop_subset m' T (hdT ▸ List.mem_cons_self x xs)
      rw [hT] at hxT
      simp only [List.mem_cons, List.mem_append] at hxT
      rcases hxT with rfl | rfl | rfl | rfl | rfl | rfl | hx | hx
      · exact absurd hh (by decide)
      · exact absurd hh (by decide)
      · exact absurd hh (by decide)
      · exact absurd hh (by decide)
      · exact absurd hh (by decide)
      · exact absurd hh (by decide)
      · exact mem_pyStr_ne_lt hx hh
      · simp at hx
        rw [hx] at hh
        exact absurd hh (by decide)

lemma firstOccur_phm_none_of_notMem {i : Nat} {s : Str} (h : '<' ∉ s) :
    firstOccur (phm i) s = none := by
  rw [phm_eq_cons]
  exact firstOccur_none_of_head_notMem h

lemma firstOccur_phm_none_append {i : Nat} {x y : Str} (hx : '<' ∉ x)
    (hy : firstOccur (phm i) y = none) :
    firstOccur (phm i) (x ++ y) = none := by
  rw [phm_eq_cons] at hy ⊢
  exact firstOccur_none_append y hy x hx

lemma startsW_phm_phm {i j : Nat} {y : Str}
    (h : startsW (phm i) (phm j ++ y) = true) : i = j := by
  have ha1 : phm i = phmHead ++ (pyStr i ++ ['>', '>', '>']) := by
    simp [phm]
  have ha2 : phm j ++ y = phmHead ++ (pyStr j ++ (['>', '>', '>'] ++ y)) := by
    simp [phm]
  rw [ha1, ha2, startsW_append_both] at h
  exact pyStr_inj (dig_startsW_eq _ _ _ (pyStr_digits i) (pyStr_digits j) h)

lemma firstOccur_phm_phm_none {i j : Nat} (hij : i ≠ j) {y : Str}
    (hy : firstOccur (phm i) y = none) :
    firstOccur (phm i) (phm j ++ y) = none := by
  have hCC : ('<' == 'C') = false := by decide
  have hs3 : firstOccur (phm i)
      (['C', 'H', 'E', 'S', 'S', '_'] ++ (pyStr j ++ (['>', '>', '>'] ++ y))) =
        none := by
    refine firstOccur_phm_none_append (by decide) ?_
    refine firstOccur_phm_none_append ?_ ?_
    · intro hm; exact mem_pyStr_ne_lt hm rfl
    · exact firstOccur_phm_none_append (by decide) hy
  have hT : ('C' :: 'H' :: 'E' :: 'S' :: 'S' :: '_' ::
      (pyStr j ++ (['>', '>', '>'] ++ y))) =
      ['C', 'H', 'E', 'S', 'S', '_'] ++ (pyStr j ++ (['>', '>', '>'] ++ y)) := by
    simp
  set T := 'C' :: 'H' :: 'E' :: 'S' :: 'S' :: '_' ::
    (pyStr j ++ (['>', '>', '>'] ++ y)) with hTdef
  have hs3' : firstOccur (phm i) T = none := by rw [hT]; exact hs3
  have hc1 : startsW (phm i) ('<' :: T) = false := by
    rw [phm_eq_cons, hTdef]
    simp [startsW, hCC]
  have hf1 : firstOccur (phm i) ('<' :: T) = none :=
    firstOccur_cons_none hc1 hs3'
  have hc2 : startsW (phm i) ('<' :: '<' :: T) = false := by
    rw [phm_eq_cons, hTdef]
    simp [startsW, hCC]
  have hf2 : firstOccur (phm i) ('<' :: '<' :: T) = none :=
    firstOccur_cons_none hc2 hf1
  have hjy : phm j ++ y = '<' :: '<' :: '<' :: T := by
    rw [hTdef, phm_eq_cons]
    simp
  have hc3 : startsW (phm i) ('<' :: '<' :: '<' :: T) = false := by
    cases hsw : startsW (phm i) ('<' :: '<' :: '<' :: T) with
    | false => rfl
    | true =>
      rw [← hjy] at hsw
      exact absurd (startsW_phm_phm hsw) hij
  rw [hjy]
  exact firstOccur_cons_none hc3 hf2

lemma stripWs_phRaw (k : Nat) : stripWs (phRaw k) = phm k := by
  have hsplit : phm k = (phmHead ++ pyStr k ++ ['>', '>']) ++ ['>'] := by
    simp [phm]
  have h1 : lstripWs (phRaw k) = phm k ++ [' '] := by
    unfold phRaw lstripWs
    rw [List.dropWhile_cons]
    simp only [show pyIsSpace ' ' = true from rfl, if_true]
    rw [phm_eq_cons, List.cons_append, List.dropWhile_cons]
    simp only [show pyIsSpace '<' = false from rfl, Bool.false_eq_true,
      if_false]
  have h2 : rstripWs (phm k ++ [' ']) = phm k := by
    unfold rstripWs
    have hx : (phm k ++ [' ']).reverse =
        ' ' :: '>' :: (phmHead ++ pyStr k ++ ['>', '>']).reverse := by
      rw [hsplit]
      simp
    rw [hx, List.dropWhile_cons]
    simp only [show pyIsSpace ' ' = true from rfl, if_true]
    rw [List.dropWhile_cons]
    simp only [show pyIsSpace '>' = false from rfl, Bool.false_eq_true,
      if_false]
    rw [show ('>' :: (phmHead ++ pyStr k ++ ['>', '>']).reverse) =
      (phm k).reverse from by rw [hsplit]; simp]
    exact List.reverse_reverse _
  unfold stripWs
  rw [h1, h2]

lemma protectGo_append : ∀ (l1 l2 : List (Nat × El)) (s : Str),
    protectGo (l1 ++ l2) s = protectGo l2 (protectGo l1 s) := by
  intro l1
  induction l1 with
  | nil => intro l2 s; rfl
  | cons a l1' ih =>
    intro l2 s
    rcases a with ⟨k, e⟩
    simp only [List.cons_append, protectGo]
    exact ih l2 _

lemma getD_append_lt {α : Type} (l1 l2 : List α) (i : Nat) (d : α)
    (h : i < l1.length) : (l1 ++ l2).getD i d = l1.getD i d := by
  simp [List.getD_eq_getElem?_getD, List.getElem?_append_left h]

lemma getD_take_lt {α : Type} (l : List α) (n i : Nat) (d : α) (h : i < n) :
    (l.take n).getD i d = l.getD i d := by
  simp [List.getD_eq_getElem?_getD, List.getElem?_take, h]

lemma take_append_left {α : Type} (l1 l2 : List α) (n : Nat)
    (h : n ≤ l1.length) : (l1 ++ l2).take n = l1.take n := by
  rw [List.take_append_eq_append_take]
  have : n - l1.length = 0 := by omega
  simp [this]

lemma protSpec_len_pos (t : Str) (l : List (Nat × El)) (c : Nat)
    (hc : c < t.length)
    (hsep : ∀ p, l.head? = some p → c < p.2.start) :
    0 < (protSpec t l c).length := by
  cases l with
  | nil =>
    simp only [protSpec, List.length_drop]
    omega
  | cons a rest =>
    rcases a with ⟨k, e⟩
    have hlt : c < e.start := hsep (k, e) rfl
    simp only [protSpec, List.length_append, sliceStr, List.length_take,
      List.length_drop]
    omega

lemma protSpec_head (t : Str) (l : List (Nat × El)) (c : Nat)
    (hc : c < t.length)
    (hsep : ∀ p, l.head? = some p → c < p.2.start) :
    (protSpec t l c)[0]? = t[c]? := by
  cases l with
  | nil =>
    simp only [protSpec]
    rw [List.getElem?_drop]
    norm_num
  | cons a rest =>
    rcases a with ⟨k, e⟩
    have hlt : c < e.start := hsep (k, e) rfl
    simp only [protSpec]
    rw [List.append_assoc]
    have hlen : 0 < (sliceStr t c e.start).length := by
      simp only [sliceStr, List.length_take, List.length_drop]
      omega
    rw [List.getElem?_append_left hlen]
    have hx : (t.drop c)[0]? = t[c]? := by
      rw [List.getElem?_drop]
      norm_num
    have hdne : t.drop c ≠ [] := by
      intro hnil
      have := congrArg List.length hnil
      simp only [List.length_drop, List.length_nil] at this
      omega
    cases hdc : t.drop c with
    | nil => exact absurd hdc hdne
    | cons d xs =>
      rw [hdc] at hx
      simp only [List.getElem?_cons_zero, sliceStr] at hx ⊢
      rw [hdc]
      have hn : e.start - c = (e.start - c - 1) + 1 := by omega
      rw [hn, List.take_succ_cons]
      simp only [List.getElem?_cons_zero]
      exact hx

lemma protect_spec (t : Str) : ∀ (l : List (Nat × El)) (i c : Nat),
    goodElsB t i c l = true →
    protectGo l.reverse t = t.take c ++ protSpec t l c := by
  intro l
  induction l with
  | nil =>
    intro i c _
    simp [protectGo, protSpec]
  | cons a rest ih =>
    rcases a with ⟨k, e⟩
    intro i c hg
    simp only [goodElsB, Bool.and_eq_true, beq_iff_eq, decide_eq_true_eq,
      and_assoc] at hg
    obtain ⟨hk, hc, h0, hse, hst, hls, hrs, hsep, hnot, hrest⟩ := hg
    have hsrec := ih (i + 1) e.stop hrest
    rw [List.reverse_cons, protectGo_append, hsrec]
    set Z := protSpec t rest e.stop with hZ
    have hsep' : ∀ p, rest.head? = some p → e.stop < p.2.start := by
      intro p hp
      cases rest with
      | nil => simp at hp
      | cons b rest2 =>
        rcases b with ⟨k2, e2⟩
        simp only [List.head?_cons, Option.some.injEq] at hp
        subst hp
        simpa using hsep
    have hlenTake : (t.take e.stop).length = e.stop := by
      simp only [List.length_take]
      omega
    have hA : (t.take e.stop ++ Z).getD (e.start - 1) 'x' =
        t.getD (e.start - 1) 'x' := by
      rw [getD_append_lt]
      · exact getD_take_lt t e.stop (e.start - 1) 'x' (by omega)
      · omega
    have hB : (t.take e.stop ++ Z).getD e.stop 'x' = t.getD e.stop 'x' := by
      rw [List.getD_eq_getElem?_getD, List.getD_eq_getElem?_getD]
      rw [List.getElem?_append_right (by omega)]
      rw [hlenTake]
      have : e.stop - e.stop = 0 := by omega
      rw [this]
      rw [protSpec_head t rest e.stop hst hsep']
    have hD : e.stop < (t.take e.stop ++ Z).length := by
      have hzpos : 0 < Z.length := protSpec_len_pos t rest e.stop hst hsep'
      simp only [List.length_append, hlenTake]
      omega
    have hF : (t.take e.stop ++ Z).take e.start = t.take e.start := by
      rw [take_append_left _ _ _ (by omega), List.take_take]
      congr 1
      omega
    have hG : (t.take e.stop ++ Z).drop e.stop = Z := by
      have hdl := List.drop_left (t.take e.stop) Z
      rw [hlenTake] at hdl
      exact hdl
    simp only [protectGo]
    rw [hA, hB]
    have hleft : (decide (0 < e.start) && pyIsSpace (t.getD (e.start - 1) 'x'))
        = true := by
      rw [hls]
      simp [h0]
    have hright : (decide (e.stop < (t.take e.stop ++ Z).length) &&
        pyIsSpace (t.getD e.stop 'x')) = true := by
      rw [hrs]
      simp only [Bool.and_true, decide_eq_true_eq]
      exact hD
    rw [hleft, hright]
    simp only [Bool.and_self, if_true]
    rw [stripWs_phRaw, hF, hG]
    have hH : t.take e.start = t.take c ++ sliceStr t c e.start := by
      have harith : e.start = c + (e.start - c) := by omega
      rw [show sliceStr t c e.start = (t.drop c).take (e.start - c) from rfl]
      conv_lhs => rw [harith]
      rw [List.take_add]
    rw [hH]
    simp [protSpec, List.append_assoc]

lemma replaceAllGo_of_none {pat rep : Str} : ∀ (fuel : Nat) (s : Str),
    firstOccur pat s = none → replaceAllGo pat rep fuel s = s := by
  intro fuel
  induction fuel with
  | zero => intro s _; cases s <;> rfl
  | succ f ih =>
    intro s h
    cases s with
    | nil => rfl
    | cons c t =>
      obtain ⟨h1, h2⟩ := firstOccur_none_cons h
      have hne : pat.isEmpty = false := by
        cases pat with
        | nil => simp [startsW] at h1
        | cons p ps => rfl
      rw [replaceAllGo]
      simp [hne, h1, ih t h2]

lemma replaceAll_of_none {pat rep s : Str} (h : firstOccur pat s = none) :
    replaceAll pat rep s = s :=
  replaceAllGo_of_none _ _ h

lemma replaceAllGo_single {pat rep : Str} (hne : pat ≠ [])
    (hns : noStraddle pat) :
    ∀ (G : Str) (fuel : Nat) (T : Str), G.length + 1 + T.length ≤ fuel →
      firstOccur pat G = none → firstOccur pat T = none →
      replaceAllGo pat rep fuel (G ++ pat ++ T) = G ++ rep ++ T := by
  intro G
  induction G with
  | nil =>
    intro fuel T hf hG hT
    cases fuel with
    | zero => omega
    | succ f =>
      cases hp : pat with
      | nil => exact absurd hp hne
      | cons p ps =>
        subst hp
        simp only [List.nil_append, List.cons_append]
        rw [replaceAllGo]
        have hsw : startsW (p :: ps) (p :: (ps ++ T)) = true := by
          have := startsW_append_self (p :: ps) T
          simpa [List.cons_append] using this
        simp only [List.isEmpty_cons, hsw, if_true, Bool.false_eq_true,
          if_false]
        have hdrop : (p :: (ps ++ T)).drop (p :: ps).length = T := by
          simp only [List.length_cons, List.drop_succ_cons]
          have := List.drop_left ps T
          exact this
        rw [hdrop, replaceAllGo_of_none f T hT]
  | cons g G' ih =>
    intro fuel T hf hG hT
    cases fuel with
    | zero => simp only [List.length_cons] at hf; omega
    | succ f =>
      obtain ⟨hsw0, hG'⟩ := firstOccur_none_cons hG
      have hnsw : startsW pat ((g :: G') ++ pat ++ T) = false :=
        not_startsW_boundary T hG hne hns (by simp)
      have hne' : pat.isEmpty = false := by
        cases pat with
        | nil => exact absurd rfl hne
        | cons p ps => rfl
      have hshape : (g :: G') ++ pat ++ T = g :: (G' ++ pat ++ T) := by
        simp
      rw [hshape]
      rw [hshape] at hnsw
      rw [replaceAllGo]
      simp only [hne', Bool.false_eq_true, if_false, hnsw]
      have hrec := ih f T (by simp only [List.length_cons] at hf; omega) hG' hT
      rw [hrec]
      simp

lemma replaceAll_single {pat rep : Str} (hne : pat ≠ []) (hns : noStraddle pat)
    (G T : Str) (hG : firstOccur pat G = none) (hT : firstOccur pat T = none) :
    replaceAll pat rep (G ++ pat ++ T) = G ++ rep ++ T := by
  unfold replaceAll
  refine replaceAllGo_single hne hns G _ T ?_ hG hT
  have hp : 0 < pat.length := by
    cases pat with
    | nil => exact absurd rfl hne
    | cons p ps => simp
  simp only [List.length_append]
  omega

lemma protSpec_not_mem (t : Str) (c0 : Char) (hct : c0 ∉ t)
    (hhd : c0 ∉ phmHead) (hgt : c0 ≠ '>') (hdig : isDigCh c0 = false) :
    ∀ (l : List (Nat × El)) (c : Nat), c0 ∉ protSpec t l c := by
  intro l
  induction l with
  | nil =>
    intro c hmem
    exact hct (List.drop_subset _ _ hmem)
  | cons a rest ih =>
    rcases a with ⟨k, e⟩
    intro c hmem
    simp only [protSpec, List.mem_append] at hmem
    rcases hmem with (hm | hm) | hm
    · exact hct (List.drop_subset _ _ (List.take_subset _ _ hm))
    · rw [phm] at hm
      simp only [List.mem_append] at hm
      rcases hm with (hm | hm) | hm
      · exact hhd hm
      · have := pyStr_digits k c0 hm
        rw [hdig] at this
        cases this
      · simp only [List.mem_cons, List.not_mem_nil, or_false] at hm
        rcases hm with hm | hm | hm <;> exact hgt hm
    · exact ih _ hm

lemma goodElsB_ids (t : Str) : ∀ (l : List (Nat × El)) (i c : Nat),
    goodElsB t i c l = true → ∀ p ∈ l, i ≤ p.1 := by
  intro l
  induction l with
  | nil => intro i c _ p hp; simp at hp
  | cons a rest ih =>
    rcases a with ⟨k, e⟩
    intro i c hg p hp
    simp only [goodElsB, Bool.and_eq_true, beq_iff_eq, decide_eq_true_eq,
      and_assoc] at hg
    obtain ⟨hk, _, _, _, _, _, _, _, _, hrest⟩ := hg
    rcases List.mem_cons.mp hp with rfl | hp2
    · omega
    · have := ih (i + 1) e.stop hrest p hp2
      omega

lemma protSpec_firstOccur_none (t : Str) (ht : '<' ∉ t) (i : Nat) :
    ∀ (l : List (Nat × El)) (c : Nat), (∀ p ∈ l, i < p.1) →
      firstOccur (phm i) (protSpec t l c) = none := by
  intro l
  induction l with
  | nil =>
    intro c _
    exact firstOccur_phm_none_of_notMem
      (fun hm => ht (List.drop_subset _ _ hm))
  | cons a rest ih =>
    rcases a with ⟨k, e⟩
    intro c hids
    simp only [protSpec]
    rw [List.append_assoc]
    refine firstOccur_phm_none_append ?_ ?_
    · intro hm
      exact ht (List.drop_subset _ _ (List.take_subset _ _ hm))
    · have hik : i ≠ k := by
        have := hids (k, e) (List.mem_cons_self _ _)
        omega
      refine firstOccur_phm_phm_none hik ?_
      exact ih _ (fun p hp => hids p (List.mem_cons_of_mem _ hp))

lemma sliceStr_drop_glue (t : Str) (c b : Nat) (h : c ≤ b) :
    sliceStr t c b ++ t.drop b = t.drop c := by
  unfold sliceStr
  have hd : t.drop b = (t.drop c).drop (b - c) := by
    rw [List.drop_drop]
    congr 1
    omega
  rw [hd, List.take_append_drop]

lemma restore_spec (t : Str) (ht1 : '<' ∉ t) (ht2 : '§' ∉ t)
    (ht3 : '[' ∉ t) :
    ∀ (l : List (Nat × El)) (i c : Nat) (P : Str),
      goodElsB t i c l = true → '<' ∉ P → '§' ∉ P → '[' ∉ P →
      restoreGo (P ++ protSpec t l c) i (l.map (fun p => p.2.notat)) =
        P ++ t.drop c := by
  intro l
  induction l with
  | nil => intro i c P _ _ _ _; rfl
  | cons a rest ih =>
    rcases a with ⟨k, e⟩
    intro i c P hg hP1 hP2 hP3
    simp only [goodElsB, Bool.and_eq_true, beq_iff_eq, decide_eq_true_eq,
      and_assoc] at hg
    obtain ⟨hk, hc, h0, hse, hst, hls, hrs, hsep, hnot, hrest⟩ := hg
    subst hk
    set Z := protSpec t rest e.stop with hZ
    set gap := sliceStr t c e.start with hgap
    have hgapT : ∀ c0, c0 ∈ gap → c0 ∈ t := by
      intro c0 hm
      exact List.drop_subset _ _ (List.take_subset _ _ hm)
    have hntT : ∀ c0, c0 ∈ e.notat → c0 ∈ t := by
      intro c0 hm
      rw [hnot] at hm
      exact List.drop_subset _ _ (List.take_subset _ _ hm)
    have hidsRest : ∀ p ∈ rest, k < p.1 := by
      intro p hp
      have := goodElsB_ids t rest (k + 1) e.stop hrest p hp
      omega
    have hG : firstOccur (phm k) (P ++ gap) = none := by
      refine firstOccur_phm_none_of_notMem ?_
      intro hm
      rcases List.mem_append.mp hm with hm | hm
      · exact hP1 hm
      · exact ht1 (hgapT _ hm)
    have hT : firstOccur (phm k) Z = none :=
      protSpec_firstOccur_none t ht1 k rest e.stop hidsRest
    have hshape : P ++ protSpec t ((k, e) :: rest) c =
        (P ++ gap) ++ phm k ++ Z := by
      simp [protSpec, List.append_assoc]
    have h1 : replaceAll (phm k) e.notat (P ++ protSpec t ((k, e) :: rest) c) =
        (P ++ gap) ++ e.notat ++ Z := by
      rw [hshape]
      exact replaceAll_single (fun hp => by simp [phm_eq_cons] at hp)
        (noStraddle_phm k) _ _ hG hT
    have hmid : ∀ c0, c0 ∈ (P ++ gap) ++ e.notat ++ Z →
        c0 ∈ P ∨ c0 ∈ t ∨ c0 ∈ Z := by
      intro c0 hm
      rcases List.mem_append.mp hm with hm | hm
      · rcases List.mem_append.mp hm with hm | hm
        · rcases List.mem_append.mp hm with hm | hm
          · exact Or.inl hm
          · exact Or.inr (Or.inl (hgapT _ hm))
        · exact Or.inr (Or.inl (hntT _ hm))
      · exact Or.inr (Or.inr hm)
    have h2 : replaceAll (secPat k) e.notat ((P ++ gap) ++ e.notat ++ Z) =
        (P ++ gap) ++ e.notat ++ Z := by
      refine replaceAll_of_none ?_
      rw [secPat]
      refine firstOccur_none_of_head_notMem ?_
      intro hm
      rcases hmid _ hm with hm | hm | hm
      · exact hP2 hm
      · exact ht2 hm
      · exact protSpec_not_mem t '§' ht2 (by decide) (by decide) (by decide)
          rest e.stop hm
    have h3 : replaceAll (brkPat k) e.notat ((P ++ gap) ++ e.notat ++ Z) =
        (P ++ gap) ++ e.notat ++ Z := by
      refine replaceAll_of_none ?_
      rw [brkPat]
      refine firstOccur_none_of_head_notMem ?_
      intro hm
      rcases hmid _ hm with hm | hm | hm
      · exact hP3 hm
      · exact ht3 hm
      · exact protSpec_not_mem t '[' ht3 (by decide) (by decide) (by decide)
          rest e.stop hm
    simp only [List.map_cons, restoreGo]
    rw [h1, h2, h3]
    have hshape2 : (P ++ gap) ++ e.notat ++ Z =
        (P ++ gap ++ e.notat) ++ Z := by
      simp [List.append_assoc]
    rw [hshape2]
    have hrec := ih (k + 1) e.stop (P ++ gap ++ e.notat) hrest
      (by
        intro hm
        rcases List.mem_append.mp hm with hm | hm
        · rcases List.mem_append.mp hm with hm | hm
          · exact hP1 hm
          · exact ht1 (hgapT _ hm)
        · exact ht1 (hntT _ hm))
      (by
        intro hm
        rcases List.mem_append.mp hm with hm | hm
        · rcases List.mem_append.mp hm with hm | hm
          · exact hP2 hm
          · exact ht2 (hgapT _ hm)
        · exact ht2 (hntT _ hm))
      (by
        intro hm
        rcases List.mem_append.mp hm with hm | hm
        · rcases List.mem_append.mp hm with hm | hm
          · exact hP3 hm
          · exact ht3 (hgapT _ hm)
        · exact ht3 (hntT _ hm))
    rw [hrec]
    rw [hnot, hgap]
    rw [List.append_assoc, List.append_assoc]
    congr 1
    rw [← List.append_assoc]
    rw [sliceStr_append t c e.start e.stop hc hse]
    exact sliceStr_drop_glue t c e.stop (by omega)

/-- C6 (counterexample): for the input `"e4"` — a text containing chess
notation — protection yields `" <<<CHESS_0>>> "` (the placeholder keeps
its padding spaces because the notation has no surrounding spaces), and
restoration returns `" e4 "`, not the original text. -/
theorem c6_counterexample :
    restoreChessNotat (protectChessNotat "e4".toList).1
        (protectChessNotat "e4".toList).2 = " e4 ".toList ∧
    restoreChessNotat (protectChessNotat "e4".toList).1
        (protectChessNotat "e4".toList).2 ≠ "e4".toList := by
  decide

/-- C6 (amended): if every extracted element sits strictly inside the
text with whitespace on both sides, consecutive elements are strictly
separated, and the text contains none of the placeholder-alphabet
characters `<`, `§`, `[`, then restoring the protected text with its
placeholder list returns exactly the original text. -/
theorem c6_protect_restore (t : Str)
    (hgood : goodElsB t 0 0 (extract_chess_elements t).enum = true)
    (h1 : '<' ∉ t) (h2 : '§' ∉ t) (h3 : '[' ∉ t) :
    restoreChessNotat (protectChessNotat t).1
      (protectChessNotat t).2 = t := by
  unfold protectChessNotat restoreChessNotat
  dsimp only
  rw [protect_spec t (extract_chess_elements t).enum 0 0 hgood]
  have hmap : (extract_chess_elements t).map El.notat =
      (extract_chess_elements t).enum.map (fun p => p.2.notat) := by
    have hm := List.enum_map_snd (extract_chess_elements t)
    conv_lhs => rw [← hm]
    rw [List.map_map]
    rfl
  rw [hmap]
  have hr := restore_spec t h1 h2 h3 (extract_chess_elements t).enum 0 0 []
    hgood (by simp) (by simp) (by simp)
  simpa using hr

/-- Closed instance of `c6_protect_restore`: the Polish text
`"po O-O dalej"` contains one castling move with spaces on both sides,
and the protect/restore round trip is the identity on it. -/
theorem c6_protect_restore_witness :
    restoreChessNotat
        (protectChessNotat "po O-O dalej".toList).1
        (protectChessNotat "po O-O dalej".toList).2 =
      "po O-O dalej".toList :=
  c6_protect_restore "po O-O dalej".toList (by decide) (by decide) (by decide)
    (by decide)

end ChessPdf
